import Mathlib

/-!
Verification of the MEI-file cleaning utilities (`utilities/mei_cleaning.py`).

The Python program manipulates `xml.etree.ElementTree` documents.  We embed
documents as finite ordered trees.  Every node carries a `nid : Nat`, a model
artefact standing for Python object identity: `ElementTree` mutations such as
`parent.remove(child)` and `list.remove` compare by object identity, and
documents produced by `ET.parse` never alias nodes, so a parsed document is a
tree whose node identities are pairwise distinct (`nodupNids`).  All theorems
about mutation are stated in that regime.

Machine integers are modelled as `Int` (Python ints are unbounded), and the
`rotate` attribute parsed by `float(...)` is modelled as an exact rational
(`Rat`); IEEE-754 rounding is not modelled, which coincides with Python on the
plain decimal literals the program's data contains.
-/

set_option maxRecDepth 100000
set_option maxHeartbeats 4000000

mutual

/-- An `xml.etree.ElementTree.Element`: identity, qualified tag, attribute
dictionary (insertion ordered, as in Python 3.7+), `.text`, `.tail`, and the
ordered child list. -/
inductive XMLElem where
  | mk : Nat → String → List (String × String) → Option String → Option String → XMLForest → XMLElem

/-- A list of sibling elements (a separate inductive so that structural
recursion over the tree is available). -/
inductive XMLForest where
  | nil : XMLForest
  | cons : XMLElem → XMLForest → XMLForest

end

def XMLElem.nid : XMLElem → Nat
  | .mk n _ _ _ _ _ => n

def XMLElem.tag : XMLElem → String
  | .mk _ t _ _ _ _ => t

def XMLElem.attrib : XMLElem → List (String × String)
  | .mk _ _ a _ _ _ => a

def XMLElem.text : XMLElem → Option String
  | .mk _ _ _ tx _ _ => tx

def XMLElem.tail : XMLElem → Option String
  | .mk _ _ _ _ tl _ => tl

def XMLElem.kids : XMLElem → XMLForest
  | .mk _ _ _ _ _ f => f

def XMLForest.toList : XMLForest → List XMLElem
  | .nil => []
  | .cons c f => c :: XMLForest.toList f

def XMLForest.ofList : List XMLElem → XMLForest
  | [] => .nil
  | c :: cs => .cons c (XMLForest.ofList cs)

/-- The Python-visible child list of an element. -/
def XMLElem.children (e : XMLElem) : List XMLElem :=
  e.kids.toList

/-- Replace the child list of an element (models in-place mutation of
`elem._children`). -/
def XMLElem.withChildren : XMLElem → List XMLElem → XMLElem
  | .mk n t a tx tl _, cs => .mk n t a tx tl (XMLForest.ofList cs)

/-- Build an element from a plain child list (used for concrete documents). -/
def xel (n : Nat) (t : String) (a : List (String × String)) (tx tl : Option String)
    (cs : List XMLElem) : XMLElem :=
  .mk n t a tx tl (XMLForest.ofList cs)

mutual

def beqX : XMLElem → XMLElem → Bool
  | .mk n t a tx tl f, .mk n' t' a' tx' tl' f' =>
    n == n' && t == t' && a == a' && tx == tx' && tl == tl' && beqF f f'

def beqF : XMLForest → XMLForest → Bool
  | .nil, .nil => true
  | .cons c f, .cons c' f' => beqX c c' && beqF f f'
  | _, _ => false

end

mutual

theorem beqX_iff : ∀ a b : XMLElem, beqX a b = true ↔ a = b
  | .mk n t a tx tl f, .mk n' t' a' tx' tl' f' => by
    simp only [beqX, Bool.and_eq_true, beq_iff_eq, XMLElem.mk.injEq]
    rw [beqF_iff]
    tauto

theorem beqF_iff : ∀ a b : XMLForest, beqF a b = true ↔ a = b
  | .nil, .nil => by simp [beqF]
  | .nil, .cons c f => by simp [beqF]
  | .cons c f, .nil => by simp [beqF]
  | .cons c f, .cons c' f' => by
    simp only [beqF, Bool.and_eq_true, XMLForest.cons.injEq]
    rw [beqX_iff, beqF_iff]

end

instance : DecidableEq XMLElem := fun a b =>
  decidable_of_iff (beqX a b = true) (beqX_iff a b)

instance : DecidableEq XMLForest := fun a b =>
  decidable_of_iff (beqF a b = true) (beqF_iff a b)

theorem toList_ofList (l : List XMLElem) : (XMLForest.ofList l).toList = l := by
  induction l with
  | nil => rfl
  | cons c cs ih => simp [XMLForest.ofList, XMLForest.toList, ih]

theorem ofList_toList : ∀ f : XMLForest, XMLForest.ofList f.toList = f
  | .nil => rfl
  | .cons c f => by simp [XMLForest.ofList, XMLForest.toList, ofList_toList f]

theorem children_withChildren (e : XMLElem) (cs : List XMLElem) :
    (e.withChildren cs).children = cs := by
  cases e
  simp [XMLElem.withChildren, XMLElem.children, XMLElem.kids, toList_ofList]

theorem withChildren_children (e : XMLElem) : e.withChildren e.children = e := by
  cases e
  simp [XMLElem.withChildren, XMLElem.children, XMLElem.kids, ofList_toList]

theorem nid_withChildren (e : XMLElem) (cs : List XMLElem) :
    (e.withChildren cs).nid = e.nid := by
  cases e; rfl

theorem tag_withChildren (e : XMLElem) (cs : List XMLElem) :
    (e.withChildren cs).tag = e.tag := by
  cases e; rfl

theorem attrib_withChildren (e : XMLElem) (cs : List XMLElem) :
    (e.withChildren cs).attrib = e.attrib := by
  cases e; rfl

/-- Python exceptions that the cleaning code can raise. -/
inductive PyErr where
  | attributeError : PyErr
  | keyError : PyErr
  | valueError : PyErr
  | typeError : PyErr
  | parseError : PyErr
  | outOfModel : PyErr
deriving DecidableEq

deriving instance DecidableEq for Except

/-- Dictionary lookup on an attribute list, first match (Python `dict` has
unique keys, so the first match is the only one for parsed documents). -/
def alookup : List (String × String) → String → Option String
  | [], _ => none
  | (k2, v) :: rest, k => if k2 = k then some v else alookup rest k

/-- Python `dict.pop(key)` on a copy: returns the value and the remaining
entries, or `none` when the key is absent (a `KeyError` in Python). -/
def popKey : List (String × String) → String →
    Option (String × List (String × String))
  | [], _ => none
  | (k2, v) :: rest, k =>
    if k2 = k then some (v, rest)
    else (popKey rest k).map (fun p => (p.1, (k2, v) :: p.2))

/-- One inclusion of Python `dict` equality. -/
def dictLe (a b : List (String × String)) : Bool :=
  a.all (fun kv => alookup b kv.1 == some kv.2)

/-- Python `dict.__eq__`: same keys with the same values, order-insensitive. -/
def dictEqB (a b : List (String × String)) : Bool :=
  dictLe a b && dictLe b a

/-- `list.remove` by object identity: delete the first child whose identity
matches `n` (no-op when absent; the call sites that could raise `ValueError`
model that error explicitly). -/
def eraseFirstNid : List XMLElem → Nat → List XMLElem
  | [], _ => []
  | c :: cs, n => if c.nid = n then cs else c :: eraseFirstNid cs n

/-- `itertools.combinations(xs, 2)` in its documented order. -/
def combinations2 {α : Type} : List α → List (α × α)
  | [] => []
  | x :: xs => xs.map (fun y => (x, y)) ++ combinations2 xs

/-- Python string containment `needle in hay` via the character lists. -/
def startsWithL : List Char → List Char → Bool
  | [], _ => true
  | _ :: _, [] => false
  | p :: ps, c :: cs => p == c && startsWithL ps cs

def containsL : List Char → List Char → Bool
  | [], needle => needle.isEmpty
  | c :: rest, needle => startsWithL needle (c :: rest) || containsL rest needle

/-! ## Namespaces and tree traversals -/

def MEIuri : String := "http://www.music-encoding.org/ns/mei"

def XMLuri : String := "http://www.w3.org/XML/1998/namespace"

def lbrace : Char := Char.ofNat 123

def rbrace : Char := Char.ofNat 125

/-- ElementTree's `{uri}local` fully-qualified name. -/
def qual (uri name : String) : String :=
  String.mk (lbrace :: uri.toList) ++ String.mk (rbrace :: name.toList)

/-- Qualified MEI tag, e.g. the Python constant `f"{MEINS}zone"`. -/
def meiT (name : String) : String := qual MEIuri name

/-- The `{http://www.w3.org/XML/1998/namespace}id` attribute key (`xml:id`). -/
def xmlIdK : String := qual XMLuri "id"

mutual

/-- Document-order traversal including the element itself (`Element.iter`). -/
def preorderSelf : XMLElem → List XMLElem
  | .mk n t a tx tl f => .mk n t a tx tl f :: preorderF f

def preorderF : XMLForest → List XMLElem
  | .nil => []
  | .cons c f => preorderSelf c ++ preorderF f

end

/-- All proper descendants in document order (ElementTree `.//*`). -/
def preorderDesc (e : XMLElem) : List XMLElem :=
  preorderF e.kids

mutual

/-- All node identities occurring in a tree. -/
def nidsOf : XMLElem → List Nat
  | .mk n _ _ _ _ f => n :: nidsOfF f

def nidsOfF : XMLForest → List Nat
  | .nil => []
  | .cons c f => nidsOf c ++ nidsOfF f

end

/-- Whether the identity `n` occurs anywhere in the subtree `e`. -/
def containsNid (e : XMLElem) (n : Nat) : Bool :=
  (nidsOf e).contains n

/-- A parsed document never aliases nodes: all identities are distinct. -/
def nodupNids (e : XMLElem) : Prop :=
  (nidsOf e).Nodup

instance (e : XMLElem) : Decidable (nodupNids e) := by
  unfold nodupNids; infer_instance

mutual

/-- Find the node with identity `n` (the model's stand-in for holding a Python
reference to that `Element` object). -/
def locateNid : XMLElem → Nat → Option XMLElem
  | .mk m t a tx tl f, n =>
    if m = n then some (.mk m t a tx tl f) else locateNidF f n

def locateNidF : XMLForest → Nat → Option XMLElem
  | .nil, _ => none
  | .cons c f, n =>
    match locateNid c n with
    | some x => some x
    | none => locateNidF f n

end

/-- `Element.iter(tag)`: document-order traversal filtered by tag. -/
def iterTag (e : XMLElem) (t : String) : List XMLElem :=
  (preorderSelf e).filter (fun c => c.tag == t)

/-! ## The serializer (`ET.tostring(..., encoding='unicode')`)

Modelled after CPython's `ElementTree._serialize_xml` for documents whose
qualified names use only the MEI namespace (registered to the empty prefix by
`ET.register_namespace("", ...)` in the source) and the predeclared `xml`
prefix.  Comments, processing instructions inside the tree, and `QName` values
do not occur in parsed documents of this program's regime. -/

def escAttribC (c : Char) : List Char :=
  if c = '&' then "&amp;".toList
  else if c = '<' then "&lt;".toList
  else if c = '>' then "&gt;".toList
  else if c = Char.ofNat 34 then "&quot;".toList
  else if c = Char.ofNat 13 then "&#13;".toList
  else if c = Char.ofNat 10 then "&#10;".toList
  else if c = Char.ofNat 9 then "&#09;".toList
  else [c]

def escCdataC (c : Char) : List Char :=
  if c = '&' then "&amp;".toList
  else if c = '<' then "&lt;".toList
  else if c = '>' then "&gt;".toList
  else [c]

def escAttrib (s : String) : List Char := s.toList.flatMap escAttribC

def escCdata (s : String) : List Char := s.toList.flatMap escCdataC

/-- Serialized form of a qualified name: the MEI namespace is registered with
the empty prefix, the XML namespace has the predeclared prefix `xml`. -/
def qn (t : String) : List Char :=
  match t.toList with
  | [] => []
  | c :: rest =>
    if c = lbrace then
      let uri := rest.takeWhile (fun x => x ≠ rbrace)
      let loc := (rest.dropWhile (fun x => x ≠ rbrace)).drop 1
      if uri = MEIuri.toList then loc
      else if uri = XMLuri.toList then "xml:".toList ++ loc
      else c :: rest
    else c :: rest

def serAttrs (l : List (String × String)) : List Char :=
  l.flatMap (fun kv =>
    ' ' :: qn kv.1 ++ '=' :: Char.ofNat 34 :: (escAttrib kv.2 ++ [Char.ofNat 34]))

/-- Python truthiness of `.text` / `.tail` (`None` and `""` are falsy). -/
def truthyTxt : Option String → Bool
  | none => false
  | some s => !s.isEmpty

def escOptCdata : Option String → List Char
  | none => []
  | some s => if s.isEmpty then [] else escCdata s

mutual

/-- Whether any tag or attribute key in the tree lies in the MEI namespace
(drives the `xmlns` declaration emitted on the serialization root). -/
def usesMei : XMLElem → Bool
  | .mk _ t a _ _ f =>
    startsWithL (lbrace :: MEIuri.toList ++ [rbrace]) t.toList ||
    a.any (fun kv => startsWithL (lbrace :: MEIuri.toList ++ [rbrace]) kv.1.toList) ||
    usesMeiF f

def usesMeiF : XMLForest → Bool
  | .nil => false
  | .cons c f => usesMei c || usesMeiF f

end

mutual

/-- Serialize one element; `extra` holds the namespace declarations emitted
right after the tag name (nonempty only at the root). -/
def serElemC (extra : List Char) : XMLElem → List Char
  | .mk _ t a tx tl f =>
    ('<' :: qn t) ++ extra ++ serAttrs a ++
    (if truthyTxt tx || !(beqF f .nil) then
      '>' :: (escOptCdata tx ++ serForest f ++ ('<' :: '/' :: qn t) ++ ['>'])
    else ' ' :: '/' :: ['>']) ++ escOptCdata tl

def serForest : XMLForest → List Char
  | .nil => []
  | .cons c f => serElemC [] c ++ serForest f

end

def xmlnsDecl : List Char :=
  (" xmlns=" ++ String.mk [Char.ofNat 34] ++ MEIuri ++ String.mk [Char.ofNat 34]).toList

/-- `ET.tostring(e, encoding='unicode')` as a character list. -/
def tostringL (e : XMLElem) : List Char :=
  serElemC (if usesMei e then xmlnsDecl else []) e

/-! ## Python numeric literal parsing

`int(...)` and `float(...)` are modelled for plain optionally-signed decimal
literals, the only shapes occurring in MEI coordinate and rotation attributes;
other strings raise `ValueError` exactly as in Python. -/

def digitsNum (l : List Char) : Nat :=
  l.foldl (fun acc c => acc * 10 + (c.toNat - 48)) 0

def pyIntCore (l : List Char) : Except PyErr Int :=
  if !l.isEmpty && l.all Char.isDigit then .ok (digitsNum l) else .error .valueError

/-- Python `int(s)` on a decimal string. -/
def pyInt (s : String) : Except PyErr Int :=
  match s.toList with
  | '-' :: rest => (pyIntCore rest).map Int.neg
  | '+' :: rest => pyIntCore rest
  | l => pyIntCore l

def pyFloatCore (l : List Char) : Except PyErr Rat :=
  let ip := l.takeWhile (fun c => c ≠ '.')
  let rest := l.dropWhile (fun c => c ≠ '.')
  match rest with
  | [] =>
    if !l.isEmpty && l.all Char.isDigit then .ok (mkRat (digitsNum l) 1)
    else .error .valueError
  | _ :: fp =>
    if (!ip.isEmpty || !fp.isEmpty) && ip.all Char.isDigit && fp.all Char.isDigit then
      .ok (mkRat (digitsNum ip * 10 ^ fp.length + digitsNum fp) (10 ^ fp.length))
    else .error .valueError

/-- Python `float(s)` on a decimal string. -/
def pyFloatLit (s : String) : Except PyErr Rat :=
  match s.toList with
  | '-' :: rest => (pyFloatCore rest).map Rat.neg
  | '+' :: rest => pyFloatCore rest
  | l => pyFloatCore l

/-! ## Zone table (`MEIFileCleaner.parse_zones`) -/

/-- The per-zone descriptor dictionary `{"coordinates": ..., "rotate": ...}`. -/
structure ZoneDesc where
  coordinates : List Int
  rotate : Rat
deriving DecidableEq

def coordNames : List String := ["ulx", "uly", "lrx", "lry"]

/-- `int(zone.get(c, -1))`. -/
def coordOf (z : XMLElem) (c : String) : Except PyErr Int :=
  match alookup z.attrib c with
  | none => .ok (-1)
  | some s => pyInt s

def coordsOf (z : XMLElem) : List String → Except PyErr (List Int)
  | [] => .ok []
  | c :: cs =>
    match coordOf z c with
    | .error e => .error e
    | .ok v => (coordsOf z cs).map (fun vs => v :: vs)

/-- `float(zone.get("rotate", 0.0))`. -/
def rotateOf (z : XMLElem) : Except PyErr Rat :=
  match alookup z.attrib "rotate" with
  | none => .ok (mkRat 0 1)
  | some s => pyFloatLit s

/-- One loop iteration of `parse_zones`: the dictionary key is
`f"#{zone_id}"`, which renders a missing `xml:id` as the literal `"#None"`. -/
def readZoneEntry (z : XMLElem) : Except PyErr (String × ZoneDesc) :=
  match coordsOf z coordNames with
  | .error e => .error e
  | .ok cs =>
    match rotateOf z with
    | .error e => .error e
    | .ok r => .ok ("#" ++ ((alookup z.attrib xmlIdK).getD "None"), ⟨cs, r⟩)

/-- Python `dict` assignment: overwriting keeps the original key position. -/
def dinsert : List (String × ZoneDesc) → String → ZoneDesc →
    List (String × ZoneDesc)
  | [], k, v => [(k, v)]
  | (k2, v2) :: rest, k, v =>
    if k2 = k then (k2, v) :: rest else (k2, v2) :: dinsert rest k v

def lookupZ : List (String × ZoneDesc) → String → Option ZoneDesc
  | [], _ => none
  | (k', v) :: rest, k => if k' = k then some v else lookupZ rest k

def parse_zones_go : List XMLElem → XMLElem → List (String × ZoneDesc) →
    (Except PyErr (List (String × ZoneDesc))) × XMLElem
  | [], d, acc => (.ok acc, d)
  | z :: rest, d, acc =>
    match readZoneEntry z with
    | .error e => (.error e, d)
    | .ok kv => parse_zones_go rest d (dinsert acc kv.1 kv.2)

/-- `MEIFileCleaner.parse_zones`, with the document state threaded through
each loop iteration to record that the loop only reads it. -/
def parse_zones_run (d : XMLElem) :
    (Except PyErr (List (String × ZoneDesc))) × XMLElem :=
  parse_zones_go (iterTag d (meiT "zone")) d []

def parse_zones (d : XMLElem) : Except PyErr (List (String × ZoneDesc)) :=
  (parse_zones_run d).1

/-- `MEIFileCleaner.find_duplicate_zones`: pairwise comparison of the zone
descriptors over `itertools.combinations(zones.keys(), 2)`. -/
def find_duplicate_zones_run (d : XMLElem) :
    (Except PyErr (List (String × String))) × XMLElem :=
  match parse_zones_run d with
  | (.error e, d') => (.error e, d')
  | (.ok tbl, d') =>
    (.ok ((combinations2 (tbl.map Prod.fst)).filter
      (fun p => decide (lookupZ tbl p.1 = lookupZ tbl p.2))), d')

def find_duplicate_zones (d : XMLElem) : Except PyErr (List (String × String)) :=
  (find_duplicate_zones_run d).1

/-! ## ElementTree path lookup

`Element.find(path)` walks the slash-separated path lazily: for each child of
the context with the first tag (in document order) it tries the rest of the
path inside it, returning the first overall hit.  The paths used by the
cleaner are fixed, so each is spelled out with the one-step combinator
`findStep`. -/

/-- `Element.find(tag)` for a single tag: first child carrying that tag. -/
def findChildL : List XMLElem → String → Option XMLElem
  | [], _ => none
  | c :: cs, t => if c.tag = t then some c else findChildL cs t

def findChild (e : XMLElem) (t : String) : Option XMLElem :=
  findChildL e.children t

/-- One path step: among the children tagged `t` (in order), the first for
which the rest of the path (`g`) succeeds. -/
def findStep (t : String) (g : XMLElem → Option XMLElem) : List XMLElem → Option XMLElem
  | [] => none
  | c :: cs =>
    if c.tag = t then
      match g c with
      | some x => some x
      | none => findStep t g cs
    else findStep t g cs

/-- `music.find(f'{MEINS}facsimile/{MEINS}surface')`. -/
def findFS (l : List XMLElem) : Option XMLElem :=
  findStep (meiT "facsimile") (fun c => findChildL c.children (meiT "surface")) l

/-- `mei.find(f'{MEINS}music/{MEINS}facsimile/{MEINS}surface')`, used by the
duplicate handler on the current document state. -/
def findPath3 (d : XMLElem) : Option XMLElem :=
  findStep (meiT "music")
    (fun m => findStep (meiT "facsimile")
      (fun fc => findChildL fc.children (meiT "surface")) m.children) d.children

/-- `mei.find('./music/body/mdiv/score/section/staff/layer')` (all MEI tags). -/
def findLayer (d : XMLElem) : Option XMLElem :=
  findStep (meiT "music") (fun a =>
    findStep (meiT "body") (fun b =>
      findStep (meiT "mdiv") (fun c =>
        findStep (meiT "score") (fun e =>
          findStep (meiT "section") (fun f =>
            findStep (meiT "staff") (fun g =>
              findChildL g.children (meiT "layer")) f.children) e.children) c.children) b.children) a.children) d.children

/-- Rebuild a tree after mutating the node that `findStep` would select:
replace the first child tagged `t` on which `g` succeeds by the result. -/
def replaceStep (t : String) (g : XMLElem → Option XMLElem) : List XMLElem → Option (List XMLElem)
  | [] => none
  | c :: cs =>
    if c.tag = t then
      match g c with
      | some c2 => some (c2 :: cs)
      | none => (replaceStep t g cs).map (fun l => c :: l)
    else (replaceStep t g cs).map (fun l => c :: l)

/-- Rebuild around the surface selected by `findFS`. -/
def replaceFS (l : List XMLElem) (ns : XMLElem) : Option (List XMLElem) :=
  replaceStep (meiT "facsimile")
    (fun c => (replaceStep (meiT "surface") (fun _ => some ns) c.children).map c.withChildren) l

/-! ## `MEIFileCleaner.remove_unreferenced_zones` -/

/-- `surface.findall(f'{MEINS}zone')`: the zone children of the surface. -/
def zoneChildren (surf : XMLElem) : List XMLElem :=
  surf.children.filter (fun c => c.tag == meiT "zone")

/-- The `for def_z in defined_zones` loop: `def_z.get(xml:id)` is `None` for a
zone without `xml:id`, and `None not in body_str` raises `TypeError`;
otherwise the zone is removed from the surface child list when its bare id is
not a substring of the serialized body. -/
def removeLoop (bodyStr : List Char) : List XMLElem → List XMLElem → Except PyErr (List XMLElem)
  | [], cur => .ok cur
  | z :: rest, cur =>
    match alookup z.attrib xmlIdK with
    | none => .error .typeError
    | some zid =>
      if containsL bodyStr zid.toList then removeLoop bodyStr rest cur
      else removeLoop bodyStr rest (eraseFirstNid cur z.nid)

/-- `MEIFileCleaner.remove_unreferenced_zones`.  A missing `music`,
`facsimile/surface` or `body` node makes the Python code call a method on
`None` (`AttributeError`).  On an error raised inside the loop Python would
leave the earlier removals in place; the model returns only the error, which
is adequate because every theorem about this function assumes a successful
run. -/
def remove_unreferenced_zones (d : XMLElem) : Except PyErr XMLElem :=
  match findChild d (meiT "music") with
  | none => .error .attributeError
  | some music =>
    match findFS music.children with
    | none => .error .attributeError
    | some surf =>
      match findChild music (meiT "body") with
      | none => .error .attributeError
      | some body =>
        match removeLoop (tostringL body) (zoneChildren surf) surf.children with
        | .error e => .error e
        | .ok cs =>
          match replaceStep (meiT "music")
              (fun m => (replaceFS m.children (surf.withChildren cs)).map m.withChildren)
              d.children with
          | none => .error .outOfModel
          | some dcs => .ok (d.withChildren dcs)

/-! ## `MEIFileCleaner.get_elements_with_duplicate_references` -/

mutual

/-- `layer.find(f".//*[@facs='{v}']")` together with
`layer.find(f".//*[@facs='{v}']/..")`: the first proper descendant (in
document order) whose `facs` attribute equals `v`, paired with its parent. -/
def findFacsWP (v : String) : XMLElem → Option (XMLElem × XMLElem)
  | .mk n t a tx tl f => findFacsWPF v (.mk n t a tx tl f) f

def findFacsWPF (v : String) (par : XMLElem) : XMLForest → Option (XMLElem × XMLElem)
  | .nil => none
  | .cons c f =>
    if alookup c.attrib "facs" = some v then some (c, par)
    else
      match findFacsWP v c with
      | some p => some p
      | none => findFacsWPF v par f

end

/-- One record of `get_elements_with_duplicate_references`'s output. -/
structure DupRef where
  element : Option XMLElem
  bb_id : String
  parent : Option XMLElem
deriving DecidableEq

/-- The per-pair body of the `for dup_zone_pair in duplicate_zones` loop; a
`None` layer raises `AttributeError` as soon as a pair is processed. -/
def resolvePair (layer : Option XMLElem) (pr : String × String) :
    Except PyErr (DupRef × DupRef) :=
  match layer with
  | none => .error .attributeError
  | some L =>
    .ok (⟨(findFacsWP pr.1 L).map Prod.fst, pr.1, (findFacsWP pr.1 L).map Prod.snd⟩,
         ⟨(findFacsWP pr.2 L).map Prod.fst, pr.2, (findFacsWP pr.2 L).map Prod.snd⟩)

def gedrGo (layer : Option XMLElem) :
    List (String × String) → Except PyErr (List (DupRef × DupRef))
  | [] => .ok []
  | pr :: rest =>
    match resolvePair layer pr with
    | .error e => .error e
    | .ok dr => (gedrGo layer rest).map (fun l => dr :: l)

/-- `MEIFileCleaner.get_elements_with_duplicate_references`. -/
def get_elements_with_duplicate_references (d : XMLElem) :
    Except PyErr (List (DupRef × DupRef)) :=
  match find_duplicate_zones d with
  | .error e => .error e
  | .ok pairs => gedrGo (findLayer d) pairs

/-! ## `MEIFileCleaner.check_element_identity` -/

/-- `check_element_identity(elem1, elem2)`.  A `None` element raises
`AttributeError` at `elem.attrib`; a missing `xml:id` or `facs` key raises
`KeyError` at `dict.pop`; otherwise the attribute dictionaries without those
two keys and the `.text` fields are compared. -/
def check_element_identity (e1 e2 : Option XMLElem) : Except PyErr Bool :=
  match e1 with
  | none => .error .attributeError
  | some x1 =>
    match e2 with
    | none => .error .attributeError
    | some x2 =>
      match popKey x1.attrib xmlIdK with
      | none => .error .keyError
      | some p1 =>
        match popKey p1.2 "facs" with
        | none => .error .keyError
        | some q1 =>
          match popKey x2.attrib xmlIdK with
          | none => .error .keyError
          | some p2 =>
            match popKey p2.2 "facs" with
            | none => .error .keyError
            | some q2 => .ok (dictEqB q1.2 q2.2 && x1.text == x2.text)

/-! ## Mutation by object identity -/

mutual

/-- `parent.remove(element)` where `parent` is the tree node with identity
`pnid` and `element` the child object with identity `cnid`.  When the parent
node holds no such child, Python's `list.remove` raises `ValueError`.  When
`pnid` does not occur in the document at all the Python call would mutate a
detached object and leave the document unchanged, which is what the model
returns; theorems about deletions work in the attached, alias-free regime. -/
def eraseChildNid (pnid cnid : Nat) : XMLElem → Except PyErr XMLElem
  | .mk n t a tx tl f =>
    if n = pnid then
      if (XMLForest.toList f).any (fun c => c.nid == cnid) then
        .ok (.mk n t a tx tl (XMLForest.ofList (eraseFirstNid (XMLForest.toList f) cnid)))
      else .error .valueError
    else
      match eraseChildNidF pnid cnid f with
      | .error e => .error e
      | .ok f2 => .ok (.mk n t a tx tl f2)

def eraseChildNidF (pnid cnid : Nat) : XMLForest → Except PyErr XMLForest
  | .nil => .ok .nil
  | .cons c f =>
    match eraseChildNid pnid cnid c with
    | .error e => .error e
    | .ok c2 =>
      match eraseChildNidF pnid cnid f with
      | .error e => .error e
      | .ok f2 => .ok (.cons c2 f2)

end

/-- `zone_id.replace('#','')`: drop every `#`. -/
def stripHash (s : String) : String :=
  String.mk (s.toList.filter (fun c => c ≠ '#'))

/-- `surface.find(f"*[@{XMLNS}id='{...}']")`: first child (any tag) whose
`xml:id` equals the given value. -/
def findChildWithAttr (e : XMLElem) (k v : String) : Option XMLElem :=
  e.children.find? (fun c => alookup c.attrib k == some v)

/-! ## `MEIFileCleaner.delete_element_and_referenced_zone` -/

/-- `delete_element_and_referenced_zone(surface, element, parent, zone_id)`.
Returns the document after the attempted mutations together with the raised
exception, if any (Python leaves the earlier in-place mutations in the tree
when a later statement raises).  The surface object's current state is read
back from the document by identity; a surface detached by the first removal
is outside the modelled regime. -/
def delete_element_and_referenced_zone (doc : XMLElem)
    (surfOpt elemOpt parentOpt : Option XMLElem) (zone_id : String) :
    XMLElem × Option PyErr :=
  match elemOpt with
  | none => (doc, some .attributeError)
  | some element =>
    match alookup element.attrib xmlIdK with
    | none => (doc, some .keyError)
    | some _ =>
      match parentOpt with
      | none => (doc, some .attributeError)
      | some parent =>
        match eraseChildNid parent.nid element.nid doc with
        | .error e => (doc, some e)
        | .ok d1 =>
          match surfOpt with
          | none => (d1, some .attributeError)
          | some surf =>
            match locateNid d1 surf.nid with
            | none => (d1, some .outOfModel)
            | some surfCur =>
              match findChildWithAttr surfCur xmlIdK (stripHash zone_id) with
              | none => (d1, some .valueError)
              | some z =>
                match eraseChildNid surf.nid z.nid d1 with
                | .error e => (d1, some e)
                | .ok d2 => (d2, none)

/-! ## Reporting and the duplicate handler -/

/-- Cleaner configuration (the constructor arguments of `MEIFileCleaner`). -/
structure CleanerConfig where
  remove_unreferenced_bounding_boxes : Bool
  remove_identical_duplicates : Bool
  raise_nonidentical_duplicates : Bool
  report_file : Option String
deriving DecidableEq

/-- The content of the conflict message built by
`register_nonidentical_duplicates`: both zone ids and both elements'
attribute dictionaries and text. -/
structure ConflictRecord where
  bb1 : String
  attrs1 : List (String × String)
  text1 : Option String
  bb2 : String
  attrs2 : List (String × String)
  text2 : Option String
deriving DecidableEq

/-- `register_nonidentical_duplicates`.  The f-string dereferences both
elements first (`AttributeError` on `None`); then, when a report file is
configured, `open(self.report_file, 'wa')` raises `ValueError` because `'wa'`
is not a valid mode — the record is only ever emitted on the print path. -/
def register_nonidentical_duplicates (cfg : CleanerConfig) (r1 r2 : DupRef) :
    Except PyErr ConflictRecord :=
  match r1.element with
  | none => .error .attributeError
  | some x1 =>
    match r2.element with
    | none => .error .attributeError
    | some x2 =>
      if cfg.report_file.isSome then .error .valueError
      else .ok ⟨r1.bb_id, x1.attrib, x1.text, r2.bb_id, x2.attrib, x2.text⟩

/-- Result of a run of `handle_referenced_duplicates`: the document state,
the conflict records emitted, and the exception that aborted the loop (if
any). -/
structure HRes where
  doc : XMLElem
  records : List ConflictRecord
  err : Option PyErr
deriving DecidableEq

/-- The `for dup_ref in dup_ref_list` loop of `handle_referenced_duplicates`,
processing the snapshot of references resolved before any mutation. -/
def handle_loop (cfg : CleanerConfig) : List (DupRef × DupRef) → XMLElem → HRes
  | [], doc => ⟨doc, [], none⟩
  | pr :: rest, doc =>
    match check_element_identity pr.1.element pr.2.element with
    | .error e => ⟨doc, [], some e⟩
    | .ok true =>
      if cfg.remove_identical_duplicates then
        match delete_element_and_referenced_zone doc (findPath3 doc)
            pr.2.element pr.2.parent pr.2.bb_id with
        | (doc2, some e) => ⟨doc2, [], some e⟩
        | (doc2, none) => handle_loop cfg rest doc2
      else handle_loop cfg rest doc
    | .ok false =>
      if cfg.raise_nonidentical_duplicates then
        match register_nonidentical_duplicates cfg pr.1 pr.2 with
        | .error e => ⟨doc, [], some e⟩
        | .ok rec =>
          let r := handle_loop cfg rest doc
          ⟨r.doc, rec :: r.records, r.err⟩
      else handle_loop cfg rest doc

/-- `MEIFileCleaner.handle_referenced_duplicates`. -/
def handle_referenced_duplicates (cfg : CleanerConfig) (d : XMLElem) : HRes :=
  match get_elements_with_duplicate_references d with
  | .error e => ⟨d, [], some e⟩
  | .ok lst => handle_loop cfg lst d

/-- `MEIFileCleaner.clean_mei`, document level.  With a configured report
file the method's own `open(self.report_file, 'wa')` raises `ValueError`
before any processing. -/
def clean_mei_doc (cfg : CleanerConfig) (d : XMLElem) : HRes :=
  if cfg.report_file.isSome then ⟨d, [], some .valueError⟩
  else
    match (if cfg.remove_unreferenced_bounding_boxes
           then remove_unreferenced_zones d else .ok d) with
    | .error e => ⟨d, [], some e⟩
    | .ok d1 => handle_referenced_duplicates cfg d1

/-! ## Parsing (`ET.parse`) and file-level I/O

`xml.etree` parsing is modelled for the shapes this program's documents use:
processing instructions before/after a single root, elements with single- or
double-quoted attributes, the default `xmlns` declaration, `xml:`-prefixed
attributes, character data with the five predefined entities.  Comments,
DOCTYPEs, other namespace prefixes and numeric character references are
outside the model and are rejected as parse errors. -/

def nlChar : Char := Char.ofNat 10

def dquote : Char := Char.ofNat 34

def squote : Char := Char.ofNat 39

def isXmlWs (c : Char) : Bool :=
  c = ' ' || c = nlChar || c = Char.ofNat 13 || c = Char.ofNat 9

def skipWs (l : List Char) : List Char :=
  l.dropWhile isXmlWs

def nameChar (c : Char) : Bool :=
  c.isAlphanum || c = '-' || c = '_' || c = '.' || c = ':'

def entList : List (List Char × Char) :=
  [("amp;".toList, '&'), ("lt;".toList, '<'), ("gt;".toList, '>'),
   ("quot;".toList, dquote), ("apos;".toList, squote)]

/-- Decode the entity following a `&`. -/
def parseEntity (l : List Char) : Option (Char × List Char) :=
  (entList.find? (fun p => startsWithL p.1 l)).map (fun p => (p.2, l.drop p.1.length))

def parseAttrValue (pat : Char) : Nat → List Char → Option (List Char × List Char)
  | 0, _ => none
  | _ + 1, [] => none
  | fuel + 1, c :: rest =>
    if c = pat then some ([], rest)
    else if c = '&' then
      match parseEntity rest with
      | none => none
      | some p => (parseAttrValue pat fuel p.2).map (fun r => (p.1 :: r.1, r.2))
    else if c = '<' then none
    else (parseAttrValue pat fuel rest).map (fun r => (c :: r.1, r.2))

def parseAttrsGo : Nat → List Char → List (String × String) →
    Option (List (String × String) × List Char)
  | 0, _, _ => none
  | fuel + 1, l, acc =>
    match skipWs l with
    | [] => none
    | c :: rest =>
      if c = '/' || c = '>' then some (acc, c :: rest)
      else
        let nm := (c :: rest).takeWhile nameChar
        let r1 := (c :: rest).dropWhile nameChar
        if nm.isEmpty then none
        else
          match skipWs r1 with
          | '=' :: r2 =>
            match skipWs r2 with
            | q :: r3 =>
              if q = dquote || q = squote then
                match parseAttrValue q fuel r3 with
                | some vr => parseAttrsGo fuel vr.2 (acc ++ [(String.mk nm, String.mk vr.1)])
                | none => none
              else none
            | [] => none
          | _ => none

/-- Qualify an attribute name: `xml:x` is predeclared, other prefixes are
outside the model, unprefixed attributes are never in the default namespace. -/
def qualifyAttrKey (k : String) : Option String :=
  if k.toList.contains ':' then
    if startsWithL "xml:".toList k.toList then
      some (qual XMLuri (String.mk (k.toList.drop 4)))
    else none
  else some k

def qualifyAttrs : List (String × String) → Option (List (String × String))
  | [] => some []
  | (k, v) :: rest =>
    match qualifyAttrKey k with
    | none => none
    | some k2 => (qualifyAttrs rest).map (fun l => (k2, v) :: l)

def XMLElem.withTail : XMLElem → Option String → XMLElem
  | .mk n t a tx _ f, tl => .mk n t a tx tl f

def optOfText (l : List Char) : Option String :=
  if l.isEmpty then none else some (String.mk l)

mutual

/-- Parse one element starting at `<`; `ns` is the inherited default
namespace, `nid` the next free node identity (ids are handed out in document
order, so a parsed document has pairwise-distinct identities). -/
def parseElemF (ns : String) (nid : Nat) : Nat → List Char →
    Option (XMLElem × List Char × Nat)
  | 0, _ => none
  | fuel + 1, l =>
    match l with
    | '<' :: l1 =>
      let nm := l1.takeWhile nameChar
      let r1 := l1.dropWhile nameChar
      if nm.isEmpty || nm.contains ':' then none
      else
        match parseAttrsGo fuel r1 [] with
        | none => none
        | some ar =>
          let nsAttr := popKey ar.1 "xmlns"
          let ns2 := match nsAttr with
            | some p => p.1
            | none => ns
          let attrsRaw := match nsAttr with
            | some p => p.2
            | none => ar.1
          match qualifyAttrs attrsRaw with
          | none => none
          | some attrs =>
            let tg := if ns2 = "" then String.mk nm else qual ns2 (String.mk nm)
            match ar.2 with
            | '/' :: '>' :: r2 => some (.mk nid tg attrs none none .nil, r2, nid + 1)
            | '>' :: r2 =>
              match parseContentF ns2 nm (nid + 1) fuel r2 with
              | none => none
              | some q =>
                some (.mk nid tg attrs q.1 none (XMLForest.ofList q.2.1), q.2.2.1, q.2.2.2)
            | _ => none
    | _ => none

/-- Parse element content up to the matching `</close>`: returns the leading
character-data run (the `.text` of the enclosing element, or the `.tail` of
the preceding sibling on recursive calls), the remaining siblings with their
tails attached, the input after the close tag, and the next free identity. -/
def parseContentF (ns : String) (close : List Char) (nid : Nat) : Nat → List Char →
    Option (Option String × (List XMLElem × (List Char × Nat)))
  | 0, _ => none
  | fuel + 1, l =>
    match parseTextRun fuel l with
    | none => none
    | some tr =>
      if startsWithL "</".toList tr.2 then
        let r1 := tr.2.drop 2
        let nm := r1.takeWhile nameChar
        let r2 := skipWs (r1.dropWhile nameChar)
        match r2 with
        | '>' :: r3 => if nm = close then some (optOfText tr.1, ([], (r3, nid))) else none
        | _ => none
      else if startsWithL "<".toList tr.2 then
        match parseElemF ns nid fuel tr.2 with
        | none => none
        | some er =>
          match parseContentF ns close er.2.2 fuel er.2.1 with
          | none => none
          | some q =>
            some (optOfText tr.1, (er.1.withTail q.1 :: q.2.1, q.2.2))
      else none

/-- A character-data run up to the next `<` (or end of input), decoding the
predefined entities. -/
def parseTextRun : Nat → List Char → Option (List Char × List Char)
  | 0, _ => none
  | _ + 1, [] => some ([], [])
  | fuel + 1, c :: rest =>
    if c = '<' then some ([], c :: rest)
    else if c = '&' then
      match parseEntity rest with
      | none => none
      | some p => (parseTextRun fuel p.2).map (fun r => (p.1 :: r.1, r.2))
    else (parseTextRun fuel rest).map (fun r => (c :: r.1, r.2))

end

def dropPIEnd : Nat → List Char → Option (List Char)
  | 0, _ => none
  | _ + 1, [] => none
  | fuel + 1, c :: rest =>
    if startsWithL "?>".toList (c :: rest) then some ((c :: rest).drop 2)
    else dropPIEnd fuel rest

/-- Skip whitespace and processing instructions (the XML declaration among
them, which `ET.parse` does not materialize in the tree). -/
def skipPIs : Nat → List Char → Option (List Char)
  | 0, _ => none
  | fuel + 1, l =>
    let l1 := skipWs l
    if startsWithL "<?".toList l1 then
      match dropPIEnd fuel (l1.drop 2) with
      | none => none
      | some l2 => skipPIs fuel l2
    else some l1

/-- `ET.parse` on the file's text. -/
def pyXmlParse (s : String) : Except PyErr XMLElem :=
  let l := s.toList
  let fuel := l.length + 2
  match skipPIs fuel l with
  | none => .error .parseError
  | some l1 =>
    match parseElemF "" 0 fuel l1 with
    | none => .error .parseError
    | some er =>
      match skipPIs fuel er.2.1 with
      | some [] => .ok er.1
      | _ => .error .parseError

/-! ## `read_mei_file` and `save_mei_file` -/

def linesKeepGo : List Char → List Char → List (List Char)
  | [], acc => if acc.isEmpty then [] else [acc.reverse]
  | c :: rest, acc =>
    if c = nlChar then (acc.reverse ++ [nlChar]) :: linesKeepGo rest []
    else linesKeepGo rest (c :: acc)

/-- Python text-file line iteration (each line keeps its newline). -/
def linesKeep (l : List Char) : List (List Char) :=
  linesKeepGo l []

/-- `re.fullmatch("^<\\?.*\\?>\\n$", line)`: the line is `<?`, then any
characters other than a newline, then `?>` and the newline. -/
def piMatchLine (line : List Char) : Bool :=
  let n := line.length
  decide (n ≥ 5) && startsWithL "<?".toList line &&
  decide (line.drop (n - 3) = ['?', '>', nlChar]) &&
  ((line.drop 2).take (n - 5)).all (fun c => c ≠ nlChar)

/-- The declaration lines captured by `read_mei_file`'s loop (leading lines
fully matching the pattern, stopping at the first that does not). -/
def captureDecls (content : String) : String :=
  String.mk ((linesKeep content.toList).takeWhile piMatchLine).flatten

/-- `read_mei_file`: the parsed tree plus the verbatim declaration lines. -/
def read_mei_file (content : String) : Except PyErr (XMLElem × String) :=
  match pyXmlParse content with
  | .error e => .error e
  | .ok d => .ok (d, captureDecls content)

def replaceAllGo (pat rep : List Char) : Nat → List Char → List Char
  | 0, s => s
  | _ + 1, [] => []
  | fuel + 1, c :: rest =>
    if startsWithL pat (c :: rest) then
      rep ++ replaceAllGo pat rep fuel ((c :: rest).drop pat.length)
    else c :: replaceAllGo pat rep fuel rest

/-- `re.sub(pat, rep, s)` for a literal pattern: leftmost non-overlapping
global replacement. -/
def replaceAllL (pat rep s : List Char) : List Char :=
  replaceAllGo pat rep s.length s

/-- `save_mei_file`: serialize, collapse `" />"` to `"/>"`, and prepend the
captured declaration lines verbatim. -/
def save_mei_file (d : XMLElem) (decls : String) : String :=
  decls ++ String.mk (replaceAllL " />".toList "/>".toList (tostringL d))

/-- The whole per-file pipeline of `clean_mei_files` on one file's text:
`read_mei_file`, `MEIFileCleaner.clean_mei`, `save_mei_file`.  A raised
exception aborts the run before anything is saved. -/
def clean_pipeline (cfg : CleanerConfig) (content : String) : Except PyErr String :=
  if cfg.report_file.isSome then .error .valueError
  else
    match read_mei_file content with
    | .error e => .error e
    | .ok dd =>
      let r := clean_mei_doc cfg dd.1
      match r.err with
      | some e => .error e
      | none => .ok (save_mei_file r.doc dd.2)

/-! ## Dictionary lemmas -/

theorem popKey_none_iff (l : List (String × String)) (k : String) :
    popKey l k = none ↔ alookup l k = none := by
  induction l with
  | nil => simp [popKey, alookup]
  | cons kv rest ih =>
    obtain ⟨k2, v⟩ := kv
    by_cases h : k2 = k
    · simp [popKey, alookup, h]
    · simp only [popKey, alookup, if_neg h]
      cases hpk : popKey rest k with
      | none => simp [ih.mp hpk]
      | some p =>
        have h1 : alookup rest k ≠ none := by
          intro hal
          rw [← ih] at hal
          rw [hal] at hpk
          cases hpk
        simp [h1]

theorem popKey_isSome_iff (l : List (String × String)) (k : String) :
    (popKey l k).isSome ↔ (alookup l k).isSome := by
  constructor
  · intro hs
    cases hal : alookup l k with
    | some v => simp
    | none =>
      rw [← popKey_none_iff] at hal
      rw [hal] at hs
      simp at hs
  · intro hs
    cases hpk : popKey l k with
    | some p => simp
    | none =>
      rw [popKey_none_iff] at hpk
      rw [hpk] at hs
      simp at hs

theorem alookup_popKey_ne (l : List (String × String)) (k k2 : String) (hne : k2 ≠ k)
    (v : String) (r : List (String × String)) (h : popKey l k = some (v, r)) :
    alookup r k2 = alookup l k2 := by
  induction l generalizing v r with
  | nil => simp [popKey] at h
  | cons kv rest ih =>
    obtain ⟨k3, w⟩ := kv
    by_cases hk : k3 = k
    · simp only [popKey, if_pos hk, Option.some.injEq, Prod.mk.injEq] at h
      obtain ⟨h1, h2⟩ := h
      subst h2
      have h3 : k3 ≠ k2 := fun hh => hne (hh ▸ hk)
      simp [alookup, h3]
    · simp only [popKey, if_neg hk] at h
      cases hpk : popKey rest k with
      | none => rw [hpk] at h; simp at h
      | some p =>
        obtain ⟨w2, r2⟩ := p
        rw [hpk] at h
        simp only [Option.map, Option.some.injEq, Prod.mk.injEq] at h
        obtain ⟨h1, h2⟩ := h
        subst h2
        by_cases hk2 : k3 = k2
        · simp [alookup, hk2]
        · simp only [alookup, if_neg hk2]
          exact ih w2 r2 hpk

/-! ## Claim C10 -/

/-- C10: `check_element_identity` is total exactly under the precondition
that both elements carry both an `xml:id` and a `facs` attribute: it returns
a boolean iff all four attributes are present, and it fails with the lookup
error (`KeyError` from `dict.pop`) iff one of them is missing. -/
theorem C10_check_element_identity_total (e1 e2 : XMLElem) :
    ((∃ b, check_element_identity (some e1) (some e2) = .ok b) ↔
      ((alookup e1.attrib xmlIdK).isSome ∧ (alookup e1.attrib "facs").isSome ∧
       (alookup e2.attrib xmlIdK).isSome ∧ (alookup e2.attrib "facs").isSome)) ∧
    (check_element_identity (some e1) (some e2) = .error .keyError ↔
      ¬((alookup e1.attrib xmlIdK).isSome ∧ (alookup e1.attrib "facs").isSome ∧
        (alookup e2.attrib xmlIdK).isSome ∧ (alookup e2.attrib "facs").isSome)) := by
  have hx : ¬ (xmlIdK = "facs") := by decide
  cases h1 : popKey e1.attrib xmlIdK with
  | none =>
    have hid1 : ¬ (alookup e1.attrib xmlIdK).isSome := by
      rw [← popKey_isSome_iff, h1]; simp
    constructor
    · constructor
      · rintro ⟨b, hb⟩
        simp [check_element_identity, h1] at hb
      · rintro ⟨ha, _⟩
        exact absurd ha hid1
    · constructor
      · intro _ hall
        exact hid1 hall.1
      · intro _
        simp [check_element_identity, h1]
  | some p1 =>
    have hid1 : (alookup e1.attrib xmlIdK).isSome := by
      rw [← popKey_isSome_iff, h1]; simp
    have hfa1eq : alookup p1.2 "facs" = alookup e1.attrib "facs" :=
      alookup_popKey_ne _ _ _ (fun hh => hx hh.symm) p1.1 p1.2 (by rw [h1])
    cases h2 : popKey p1.2 "facs" with
    | none =>
      have hfa1 : ¬ (alookup e1.attrib "facs").isSome := by
        rw [← hfa1eq, ← popKey_isSome_iff, h2]; simp
      constructor
      · constructor
        · rintro ⟨b, hb⟩
          simp [check_element_identity, h1, h2] at hb
        · rintro ⟨_, ha, _⟩
          exact absurd ha hfa1
      · constructor
        · intro _ hall
          exact hfa1 hall.2.1
        · intro _
          simp [check_element_identity, h1, h2]
    | some q1 =>
      have hfa1 : (alookup e1.attrib "facs").isSome := by
        rw [← hfa1eq, ← popKey_isSome_iff, h2]; simp
      cases h3 : popKey e2.attrib xmlIdK with
      | none =>
        have hid2 : ¬ (alookup e2.attrib xmlIdK).isSome := by
          rw [← popKey_isSome_iff, h3]; simp
        constructor
        · constructor
          · rintro ⟨b, hb⟩
            simp [check_element_identity, h1, h2, h3] at hb
          · rintro ⟨_, _, ha, _⟩
            exact absurd ha hid2
        · constructor
          · intro _ hall
            exact hid2 hall.2.2.1
          · intro _
            simp [check_element_identity, h1, h2, h3]
      | some p2 =>
        have hid2 : (alookup e2.attrib xmlIdK).isSome := by
          rw [← popKey_isSome_iff, h3]; simp
        have hfa2eq : alookup p2.2 "facs" = alookup e2.attrib "facs" :=
          alookup_popKey_ne _ _ _ (fun hh => hx hh.symm) p2.1 p2.2 (by rw [h3])
        cases h4 : popKey p2.2 "facs" with
        | none =>
          have hfa2 : ¬ (alookup e2.attrib "facs").isSome := by
            rw [← hfa2eq, ← popKey_isSome_iff, h4]; simp
          constructor
          · constructor
            · rintro ⟨b, hb⟩
              simp [check_element_identity, h1, h2, h3, h4] at hb
            · rintro ⟨_, _, _, ha⟩
              exact absurd ha hfa2
          · constructor
            · intro _ hall
              exact hfa2 hall.2.2.2
            · intro _
              simp [check_element_identity, h1, h2, h3, h4]
        | some q2 =>
          have hfa2 : (alookup e2.attrib "facs").isSome := by
            rw [← hfa2eq, ← popKey_isSome_iff, h4]; simp
          constructor
          · constructor
            · intro _
              exact ⟨hid1, hfa1, hid2, hfa2⟩
            · intro _
              refine ⟨dictEqB q1.2 q2.2 && e1.text == e2.text, ?_⟩
              simp [check_element_identity, h1, h2, h3, h4]
          · constructor
            · intro hb
              simp [check_element_identity, h1, h2, h3, h4] at hb
            · intro hall
              exact absurd ⟨hid1, hfa1, hid2, hfa2⟩ hall

/-! ## Claim C9 -/

theorem parse_zones_go_snd (d : XMLElem) :
    ∀ (l : List XMLElem) (acc : List (String × ZoneDesc)),
      (parse_zones_go l d acc).2 = d := by
  intro l
  induction l with
  | nil => intro acc; rfl
  | cons z rest ih =>
    intro acc
    cases h : readZoneEntry z with
    | error e => simp [parse_zones_go, h]
    | ok kv => simp [parse_zones_go, h, ih]

/-- C9: `parse_zones` and `find_duplicate_zones` are read-only — with the
document state threaded through every loop iteration, both runs return the
document unchanged. -/
theorem C9_parse_and_find_readonly (d : XMLElem) :
    (parse_zones_run d).2 = d ∧ (find_duplicate_zones_run d).2 = d := by
  have h1 : (parse_zones_run d).2 = d := parse_zones_go_snd d _ []
  refine ⟨h1, ?_⟩
  unfold find_duplicate_zones_run
  rcases hp : parse_zones_run d with ⟨r, d2⟩
  have hd2 : d2 = d := by rw [← h1, hp]
  cases r with
  | error e => simpa using hd2
  | ok tbl => simpa using hd2

/-! ## Claim C5: combinatorics of the duplicate finder -/

theorem c2_length {α : Type} (l : List α) :
    (combinations2 l).length = l.length.choose 2 := by
  induction l with
  | nil => rfl
  | cons x xs ih =>
    simp only [combinations2, List.length_append, List.length_map, ih, List.length_cons]
    rw [Nat.choose_succ_succ, Nat.choose_one_right]

theorem c2_subset {α : Type} {l : List α} {a b : α}
    (h : (a, b) ∈ combinations2 l) : a ∈ l ∧ b ∈ l := by
  induction l with
  | nil => cases h
  | cons x xs ih =>
    simp only [combinations2, List.mem_append, List.mem_map] at h
    rcases h with ⟨y, hy, he⟩ | h
    · obtain ⟨ha, hb⟩ := Prod.mk.injEq .. ▸ he
      subst ha hb
      exact ⟨List.mem_cons_self .., List.mem_cons_of_mem _ hy⟩
    · obtain ⟨ha, hb⟩ := ih h
      exact ⟨List.mem_cons_of_mem _ ha, List.mem_cons_of_mem _ hb⟩

theorem c2_ne {α : Type} {l : List α} (hnd : l.Nodup) {a b : α}
    (h : (a, b) ∈ combinations2 l) : a ≠ b := by
  induction l with
  | nil => cases h
  | cons x xs ih =>
    rw [List.nodup_cons] at hnd
    simp only [combinations2, List.mem_append, List.mem_map] at h
    rcases h with ⟨y, hy, he⟩ | h
    · obtain ⟨ha, hb⟩ := Prod.mk.injEq .. ▸ he
      subst ha hb
      intro hab
      exact hnd.1 (hab ▸ hy)
    · exact ih hnd.2 h

theorem c2_total {α : Type} {l : List α} (hnd : l.Nodup) {a b : α}
    (ha : a ∈ l) (hb : b ∈ l) (hab : a ≠ b) :
    (a, b) ∈ combinations2 l ∨ (b, a) ∈ combinations2 l := by
  induction l with
  | nil => cases ha
  | cons x xs ih =>
    rw [List.nodup_cons] at hnd
    rcases List.mem_cons.mp ha with rfl | ha2
    · left
      have hb2 : b ∈ xs := by
        rcases List.mem_cons.mp hb with rfl | hb2
        · exact absurd rfl hab
        · exact hb2
      simp only [combinations2, List.mem_append, List.mem_map]
      exact Or.inl ⟨b, hb2, rfl⟩
    · rcases List.mem_cons.mp hb with rfl | hb2
      · right
        simp only [combinations2, List.mem_append, List.mem_map]
        exact Or.inl ⟨a, ha2, rfl⟩
      · rcases ih hnd.2 ha2 hb2 with h | h
        · left
          simp only [combinations2, List.mem_append]
          exact Or.inr h
        · right
          simp only [combinations2, List.mem_append]
          exact Or.inr h

theorem dinsert_fst (tbl : List (String × ZoneDesc)) (k : String) (v : ZoneDesc) :
    (dinsert tbl k v).map Prod.fst =
      if k ∈ tbl.map Prod.fst then tbl.map Prod.fst else tbl.map Prod.fst ++ [k] := by
  induction tbl with
  | nil => simp [dinsert]
  | cons kv rest ih =>
    obtain ⟨k2, v2⟩ := kv
    by_cases h : k2 = k
    · subst h
      simp [dinsert]
    · simp only [dinsert, if_neg h, List.map_cons, ih]
      by_cases hm : k ∈ rest.map Prod.fst
      · simp [hm, h, List.mem_cons, fun hh : k = k2 => h hh.symm]
      · have hnot : ¬ (k = k2 ∨ k ∈ rest.map Prod.fst) := by
          rintro (hh | hh)
          · exact h hh.symm
          · exact hm hh
        simp only [List.map_cons, List.mem_cons, if_neg hm, if_neg hnot]
        rfl

theorem dinsert_fst_nodup (tbl : List (String × ZoneDesc)) (k : String) (v : ZoneDesc)
    (hnd : (tbl.map Prod.fst).Nodup) : ((dinsert tbl k v).map Prod.fst).Nodup := by
  rw [dinsert_fst]
  by_cases h : k ∈ tbl.map Prod.fst
  · simpa [h] using hnd
  · rw [if_neg h, List.nodup_append]
    exact ⟨hnd, List.nodup_singleton k,
      fun x hx hx2 => h ((List.mem_singleton.mp hx2) ▸ hx)⟩

theorem parse_zones_go_nodup (d : XMLElem) (l : List XMLElem) :
    ∀ (acc tbl : List (String × ZoneDesc)), (acc.map Prod.fst).Nodup →
      (parse_zones_go l d acc).1 = .ok tbl → (tbl.map Prod.fst).Nodup := by
  induction l with
  | nil =>
    intro acc tbl hnd h
    simp only [parse_zones_go, Except.ok.injEq] at h
    exact h ▸ hnd
  | cons z rest ih =>
    intro acc tbl hnd h
    cases hz : readZoneEntry z with
    | error e => rw [parse_zones_go, hz] at h; cases h
    | ok kv =>
      rw [parse_zones_go, hz] at h
      exact ih _ tbl (dinsert_fst_nodup acc kv.1 kv.2 hnd) h

theorem parse_zones_nodup (d : XMLElem) (tbl : List (String × ZoneDesc))
    (h : parse_zones d = .ok tbl) : (tbl.map Prod.fst).Nodup :=
  parse_zones_go_nodup d _ [] tbl List.nodup_nil h

theorem lookupZ_isSome_of_mem (tbl : List (String × ZoneDesc)) (k : String)
    (h : k ∈ tbl.map Prod.fst) : (lookupZ tbl k).isSome := by
  induction tbl with
  | nil => cases h
  | cons kv rest ih =>
    by_cases hk : kv.1 = k
    · obtain ⟨k2, v2⟩ := kv
      simp only [lookupZ, if_pos hk, Option.isSome_some]
    · obtain ⟨k2, v2⟩ := kv
      simp only [List.map_cons, List.mem_cons] at h
      rcases h with rfl | h
      · exact absurd rfl hk
      · simp only [lookupZ, if_neg hk]
        exact ih h

theorem lookupZ_mem (tbl : List (String × ZoneDesc)) (k : String) (v : ZoneDesc)
    (h : lookupZ tbl k = some v) : (k, v) ∈ tbl := by
  induction tbl with
  | nil => cases h
  | cons kv rest ih =>
    obtain ⟨k2, v2⟩ := kv
    by_cases hk : k2 = k
    · subst hk
      simp [lookupZ] at h
      subst h
      exact List.mem_cons_self ..
    · simp only [lookupZ, if_neg hk] at h
      exact List.mem_cons_of_mem _ (ih h)

theorem find_duplicate_zones_eq (d : XMLElem) (tbl : List (String × ZoneDesc))
    (hp : parse_zones d = .ok tbl) :
    find_duplicate_zones d = .ok ((combinations2 (tbl.map Prod.fst)).filter
      (fun p => decide (lookupZ tbl p.1 = lookupZ tbl p.2))) := by
  unfold find_duplicate_zones find_duplicate_zones_run
  unfold parse_zones at hp
  rcases hq : parse_zones_run d with ⟨r, d2⟩
  rw [hq] at hp
  simp only at hp
  subst hp
  simp

/-- C5: the Duplicate Zone Finder reports exactly the unordered key pairs
whose zone descriptors are equal (exact equality of the coordinate tuple and
rotation), and when all `n` zones in the table are mutually identical it
reports `n.choose 2` pairs. -/
theorem C5_find_duplicate_zones_exact (d : XMLElem) (tbl : List (String × ZoneDesc))
    (pairs : List (String × String))
    (hp : parse_zones d = .ok tbl) (hf : find_duplicate_zones d = .ok pairs) :
    (∀ a b : String, ((a, b) ∈ pairs ∨ (b, a) ∈ pairs) ↔
      (a ≠ b ∧ a ∈ tbl.map Prod.fst ∧ b ∈ tbl.map Prod.fst ∧
        lookupZ tbl a = lookupZ tbl b)) ∧
    ((∀ p q, p ∈ tbl → q ∈ tbl → p.2 = q.2) →
      pairs.length = (tbl.map Prod.fst).length.choose 2) := by
  have hnd := parse_zones_nodup d tbl hp
  have heq := find_duplicate_zones_eq d tbl hp
  rw [hf] at heq
  injection heq with heq
  subst heq
  constructor
  · intro a b
    constructor
    · rintro (h | h)
      · rw [List.mem_filter] at h
        obtain ⟨hm, hpred⟩ := h
        have hs := c2_subset hm
        exact ⟨c2_ne hnd hm, hs.1, hs.2, of_decide_eq_true hpred⟩
      · rw [List.mem_filter] at h
        obtain ⟨hm, hpred⟩ := h
        have hs := c2_subset hm
        exact ⟨(c2_ne hnd hm).symm, hs.2, hs.1, (of_decide_eq_true hpred).symm⟩
    · rintro ⟨hne, ha, hb, hl⟩
      rcases c2_total hnd ha hb hne with h | h
      · left
        rw [List.mem_filter]
        exact ⟨h, decide_eq_true hl⟩
      · right
        rw [List.mem_filter]
        exact ⟨h, decide_eq_true hl.symm⟩
  · intro hval
    have hall : ∀ p ∈ combinations2 (tbl.map Prod.fst),
        (fun p : String × String => decide (lookupZ tbl p.1 = lookupZ tbl p.2)) p = true := by
      rintro ⟨x, y⟩ hm
      have hs := c2_subset hm
      cases hx : lookupZ tbl x with
      | none => exact absurd (lookupZ_isSome_of_mem tbl x hs.1) (by simp [hx])
      | some vx =>
        cases hy : lookupZ tbl y with
        | none => exact absurd (lookupZ_isSome_of_mem tbl y hs.2) (by simp [hy])
        | some vy =>
          have hv := hval (x, vx) (y, vy) (lookupZ_mem tbl x vx hx) (lookupZ_mem tbl y vy hy)
          simp only at hv
          simp only [decide_eq_true_eq]
          rw [hx, hy, hv]
    rw [List.filter_eq_self.mpr hall, c2_length]

def c5zone (n : Nat) (zid : String) : XMLElem :=
  xel n (meiT "zone") [(xmlIdK, zid), ("ulx", "0"), ("uly", "0"), ("lrx", "10"), ("lry", "10")]
    none none []

def c5doc : XMLElem :=
  xel 0 (meiT "surface") [] none none [c5zone 1 "z1", c5zone 2 "z2", c5zone 3 "z3"]

def c5tbl : List (String × ZoneDesc) :=
  [("#z1", ⟨[0, 0, 10, 10], mkRat 0 1⟩), ("#z2", ⟨[0, 0, 10, 10], mkRat 0 1⟩),
   ("#z3", ⟨[0, 0, 10, 10], mkRat 0 1⟩)]

def c5pairs : List (String × String) :=
  [("#z1", "#z2"), ("#z1", "#z3"), ("#z2", "#z3")]

/-- Witness for C5 at a table of three mutually identical zones: the pair
`(z1, z3)` is reported and exactly `3 = Nat.choose 3 2` pairs come out. -/
theorem C5_witness :
    ((("#z1", "#z3") ∈ c5pairs ∨ ("#z3", "#z1") ∈ c5pairs) ∧
      c5pairs.length = Nat.choose 3 2) := by
  have h := C5_find_duplicate_zones_exact c5doc c5tbl c5pairs (by decide) (by decide)
  refine ⟨(h.1 "#z1" "#z3").mpr (by decide), ?_⟩
  have h2 := h.2 (by intro p q hp hq; fin_cases hp <;> fin_cases hq <;> rfl)
  simpa using h2

/-! ## Concrete documents for the duplicate-handling claims -/

/-- A score element referencing a zone (tag `syllable`, representative of any
referencing body element). -/
def refEl (n : Nat) (eid fac : String) (txt : Option String)
    (extra : List (String × String)) : XMLElem :=
  xel n (meiT "syllable") ([(xmlIdK, eid), ("facs", fac)] ++ extra) txt none []

/-- A full MEI skeleton: `music` with `facsimile/surface` holding `zones` and
a `body/mdiv/score/section/staff/layer` chain holding `layerKids`. -/
def mkMeiDoc (zones layerKids : List XMLElem) : XMLElem :=
  xel 0 (meiT "mei") [] none none
    [xel 1 (meiT "music") [] none none
      [xel 2 (meiT "facsimile") [] none none
        [xel 3 (meiT "surface") [] none none zones],
       xel 20 (meiT "body") [] none none
        [xel 21 (meiT "mdiv") [] none none
          [xel 22 (meiT "score") [] none none
            [xel 23 (meiT "section") [] none none
              [xel 24 (meiT "staff") [] none none
                [xel 25 (meiT "layer") [] none none layerKids]]]]]]]

def cfgDefault : CleanerConfig := ⟨true, true, true, none⟩

/-! ## Claim C3: a null resolved element crashes the deduplication step -/

/-- Two identical zones that no score element references. -/
def c3doc : XMLElem := mkMeiDoc [c5zone 4 "z1", c5zone 5 "z2"] []

/-- C3 failing input: with a duplicate zone pair whose members are referenced
by no element, the resolver yields `None` for both, and
`check_element_identity(None, None)` raises `AttributeError` at
`None.attrib` — the loop aborts instead of treating the pair as
"not identical". -/
theorem C3_null_element_crashes :
    handle_referenced_duplicates cfgDefault c3doc =
      ⟨c3doc, [], some PyErr.attributeError⟩ := by
  decide

/-! ## Claim C6: the conflict-report path -/

def c6e1 : XMLElem := refEl 30 "e1" "#z1" (some "A") []

def c6e2 : XMLElem := refEl 31 "e2" "#z2" (some "B") []

/-- Two identical zones referenced by elements with different text. -/
def c6doc : XMLElem := mkMeiDoc [c5zone 4 "z1", c5zone 5 "z2"] [c6e1, c6e2]

def cfgReport : CleanerConfig := ⟨true, true, true, some "report.txt"⟩

/-- C6 evaluation at the failing input.  On the print path (no report file)
the non-identical duplicate pair produces exactly one conflict record holding
both elements' attributes and text and the document is unchanged; with
`report_file` set, `open(report_file, 'wa')` raises `ValueError` (invalid
mode string `'wa'`) and nothing is recorded. -/
theorem C6_report_file_crashes :
    handle_referenced_duplicates cfgDefault c6doc =
      ⟨c6doc,
       [⟨"#z1", [(xmlIdK, "e1"), ("facs", "#z1")], some "A",
         "#z2", [(xmlIdK, "e2"), ("facs", "#z2")], some "B"⟩], none⟩ ∧
    handle_referenced_duplicates cfgReport c6doc =
      ⟨c6doc, [], some PyErr.valueError⟩ := by
  constructor
  · decide
  · decide

/-! ## Claim C2: the resolver returns the first match, not null, on multiple
references -/

def c2e1 : XMLElem := refEl 30 "e1" "#z1" none []

def c2e2 : XMLElem := refEl 31 "e2" "#z1" none []

def c2e3 : XMLElem := refEl 32 "e3" "#z2" none []

def c2layer : XMLElem := xel 25 (meiT "layer") [] none none [c2e1, c2e2, c2e3]

/-- Two identical zones; `#z1` is referenced by two distinct elements. -/
def c2doc : XMLElem :=
  xel 0 (meiT "mei") [] none none
    [xel 1 (meiT "music") [] none none
      [xel 2 (meiT "facsimile") [] none none
        [xel 3 (meiT "surface") [] none none [c5zone 4 "z1", c5zone 5 "z2"]],
       xel 20 (meiT "body") [] none none
        [xel 21 (meiT "mdiv") [] none none
          [xel 22 (meiT "score") [] none none
            [xel 23 (meiT "section") [] none none
              [xel 24 (meiT "staff") [] none none [c2layer]]]]]]]

/-- C2 counterexample: two elements reference `#z1`, yet the resolver
returns the first of them (`e1`) rather than a null element — refuting
"returns a null element whenever more than one element references the
zone". -/
theorem C2_counterexample :
    get_elements_with_duplicate_references c2doc =
      .ok [(⟨some c2e1, "#z1", some c2layer⟩, ⟨some c2e3, "#z2", some c2layer⟩)] ∧
    ((preorderDesc c2layer).filter
      (fun c => alookup c.attrib "facs" == some "#z1")).length = 2 := by
  constructor
  · decide
  · decide

/-! ## What the resolver actually returns -/

theorem preorderSelf_eq (e : XMLElem) : preorderSelf e = e :: preorderDesc e := by
  cases e
  rfl

mutual

theorem findFacsWP_some (v : String) : ∀ (e : XMLElem) (p : XMLElem × XMLElem),
    findFacsWP v e = some p →
    p.1 ∈ preorderDesc e ∧ alookup p.1.attrib "facs" = some v ∧
    p.1 ∈ p.2.children ∧ (p.2 = e ∨ p.2 ∈ preorderDesc e)
  | .mk n t a tx tl f, p, h =>
    findFacsWPF_some v (.mk n t a tx tl f) f (fun _ hx => hx) p h

theorem findFacsWPF_some (v : String) : ∀ (par : XMLElem) (f : XMLForest),
    (∀ x ∈ XMLForest.toList f, x ∈ par.children) → ∀ (p : XMLElem × XMLElem),
    findFacsWPF v par f = some p →
    p.1 ∈ preorderF f ∧ alookup p.1.attrib "facs" = some v ∧
    p.1 ∈ p.2.children ∧ (p.2 = par ∨ p.2 ∈ preorderF f)
  | par, .nil, _, p, h => by cases h
  | par, .cons c f, hs, p, h => by
    by_cases hc : alookup c.attrib "facs" = some v
    · simp only [findFacsWPF, if_pos hc, Option.some.injEq] at h
      subst h
      refine ⟨?_, hc, ?_, Or.inl rfl⟩
      · simp only [preorderF, List.mem_append]
        left
        rw [preorderSelf_eq c]
        exact List.mem_cons_self ..
      · exact hs c (by simp [XMLForest.toList])
    · simp only [findFacsWPF, if_neg hc] at h
      cases hw : findFacsWP v c with
      | some q =>
        rw [hw] at h
        simp only [Option.some.injEq] at h
        subst h
        have hq := findFacsWP_some v c q hw
        refine ⟨?_, hq.2.1, hq.2.2.1, ?_⟩
        · simp only [preorderF, List.mem_append]
          left
          rw [preorderSelf_eq c]
          exact List.mem_cons_of_mem _ hq.1
        · right
          simp only [preorderF, List.mem_append]
          left
          rw [preorderSelf_eq c]
          rcases hq.2.2.2 with rfl | hin
          · exact List.mem_cons_self ..
          · exact List.mem_cons_of_mem _ hin
      | none =>
        rw [hw] at h
        have hrec := findFacsWPF_some v par f
          (fun x hx => hs x (by simp [XMLForest.toList, hx])) p h
        refine ⟨?_, hrec.2.1, hrec.2.2.1, ?_⟩
        · simp only [preorderF, List.mem_append]
          exact Or.inr hrec.1
        · rcases hrec.2.2.2 with hp | hin
          · exact Or.inl hp
          · right
            simp only [preorderF, List.mem_append]
            exact Or.inr hin

end

mutual

theorem findFacsWP_none_iff (v : String) : ∀ (e : XMLElem),
    (findFacsWP v e = none ↔
      ∀ x ∈ preorderDesc e, ¬ (alookup x.attrib "facs" = some v))
  | .mk n t a tx tl f => findFacsWPF_none_iff v (.mk n t a tx tl f) f

theorem findFacsWPF_none_iff (v : String) : ∀ (par : XMLElem) (f : XMLForest),
    (findFacsWPF v par f = none ↔
      ∀ x ∈ preorderF f, ¬ (alookup x.attrib "facs" = some v))
  | par, .nil => by simp [findFacsWPF, preorderF]
  | par, .cons c f => by
    by_cases hc : alookup c.attrib "facs" = some v
    · simp only [findFacsWPF, if_pos hc]
      constructor
      · intro h; cases h
      · intro hall
        refine absurd hc (hall c ?_)
        simp only [preorderF, List.mem_append]
        left
        rw [preorderSelf_eq c]
        exact List.mem_cons_self ..
    · simp only [findFacsWPF, if_neg hc]
      cases hw : findFacsWP v c with
      | some q =>
        simp only
        constructor
        · intro h; cases h
        · intro hall
          have hq := findFacsWP_some v c q hw
          refine absurd hq.2.1 (hall q.1 ?_)
          simp only [preorderF, List.mem_append]
          left
          rw [preorderSelf_eq c]
          exact List.mem_cons_of_mem _ hq.1
      | none =>
        simp only
        have hdesc := (findFacsWP_none_iff v c).mp hw
        rw [findFacsWPF_none_iff v par f]
        constructor
        · intro hall x hx
          simp only [preorderF, List.mem_append] at hx
          rcases hx with hx | hx
          · rw [preorderSelf_eq c] at hx
            rcases List.mem_cons.mp hx with rfl | hx
            · exact hc
            · exact hdesc x hx
          · exact hall x hx
        · intro hall x hx
          refine hall x ?_
          simp only [preorderF, List.mem_append]
          exact Or.inr hx

end

theorem gedrGo_mem (L : XMLElem) :
    ∀ (pairs : List (String × String)) (entries : List (DupRef × DupRef)),
    gedrGo (some L) pairs = .ok entries →
    ∀ pr ∈ entries, ∃ q ∈ pairs,
      pr = (⟨(findFacsWP q.1 L).map Prod.fst, q.1, (findFacsWP q.1 L).map Prod.snd⟩,
            ⟨(findFacsWP q.2 L).map Prod.fst, q.2, (findFacsWP q.2 L).map Prod.snd⟩) := by
  intro pairs
  induction pairs with
  | nil =>
    intro entries h pr hpr
    simp only [gedrGo, Except.ok.injEq] at h
    subst h
    cases hpr
  | cons q rest ih =>
    intro entries h pr hpr
    simp only [gedrGo, resolvePair] at h
    cases hg : gedrGo (some L) rest with
    | error e =>
      rw [hg] at h
      cases h
    | ok tl =>
      rw [hg] at h
      simp only [Except.map, Except.ok.injEq] at h
      subst h
      rcases List.mem_cons.mp hpr with rfl | hpr2
      · exact ⟨q, List.mem_cons_self .., rfl⟩
      · obtain ⟨q2, hq2, he⟩ := ih tl hg pr hpr2
        exact ⟨q2, List.mem_cons_of_mem _ hq2, he⟩

/-- C2 amended: for every duplicate pair record produced by the Reference
Resolver, the resolved element is null exactly when zero elements in the
layer subtree reference the zone; when at least one reference exists (also
when several do) the resolver returns a referencing element — in fact a
`facs`-matching descendant of the layer, the first in document order. -/
theorem C2_amended_resolver_first_match (d L : XMLElem)
    (entries : List (DupRef × DupRef))
    (hL : findLayer d = some L)
    (h : get_elements_with_duplicate_references d = .ok entries) :
    ∀ pr ∈ entries, ∀ r ∈ [pr.1, pr.2],
      ((r.element = none ↔
        ∀ x ∈ preorderDesc L, ¬ (alookup x.attrib "facs" = some r.bb_id)) ∧
       (∀ e, r.element = some e →
        e ∈ preorderDesc L ∧ alookup e.attrib "facs" = some r.bb_id)) := by
  unfold get_elements_with_duplicate_references at h
  cases hf : find_duplicate_zones d with
  | error e =>
    rw [hf] at h
    cases h
  | ok pairs =>
    rw [hf, hL] at h
    intro pr hpr r hr
    obtain ⟨q, _, rfl⟩ := gedrGo_mem L pairs entries h pr hpr
    have key : ∀ w : String,
        (((findFacsWP w L).map Prod.fst = none ↔
          ∀ x ∈ preorderDesc L, ¬ (alookup x.attrib "facs" = some w)) ∧
         (∀ e, (findFacsWP w L).map Prod.fst = some e →
          e ∈ preorderDesc L ∧ alookup e.attrib "facs" = some w)) := by
      intro w
      constructor
      · constructor
        · intro hn
          cases hw : findFacsWP w L with
          | none => exact (findFacsWP_none_iff w L).mp hw
          | some p => rw [hw] at hn; cases hn
        · intro hall
          rw [(findFacsWP_none_iff w L).mpr hall]
          rfl
      · intro e he
        cases hw : findFacsWP w L with
        | none => rw [hw] at he; cases he
        | some p =>
          rw [hw] at he
          simp only [Option.map, Option.some.injEq] at he
          subst he
          have hp := findFacsWP_some w L p hw
          exact ⟨hp.1, hp.2.1⟩
    rcases List.mem_cons.mp hr with rfl | hr2
    · exact key q.1
    · rcases List.mem_cons.mp hr2 with rfl | hr3
      · exact key q.2
      · cases hr3

/-- Witness for the amended C2 at the document where two elements reference
`#z1`: the resolver output for the first pair member is the concrete first
referencing element, which indeed is a layer descendant carrying
`facs="#z1"`. -/
theorem C2_amended_witness :
    c2e1 ∈ preorderDesc c2layer ∧ alookup c2e1.attrib "facs" = some "#z1" := by
  have h := C2_amended_resolver_first_match c2doc c2layer
    [(⟨some c2e1, "#z1", some c2layer⟩, ⟨some c2e3, "#z2", some c2layer⟩)]
    (by decide) (by decide)
  have h2 := h (⟨some c2e1, "#z1", some c2layer⟩, ⟨some c2e3, "#z2", some c2layer⟩)
    (List.mem_cons_self ..) ⟨some c2e1, "#z1", some c2layer⟩ (List.mem_cons_self ..)
  exact h2.2 c2e1 rfl

/-! ## Lemmas on `eraseFirstNid` and the removal loop -/

theorem eraseFirstNid_sublist (l : List XMLElem) (n : Nat) :
    (eraseFirstNid l n).Sublist l := by
  induction l with
  | nil => simp [eraseFirstNid]
  | cons c cs ih =>
    by_cases h : c.nid = n
    · simp only [eraseFirstNid, if_pos h]
      exact List.sublist_cons_self ..
    · simp only [eraseFirstNid, if_neg h]
      exact List.Sublist.cons₂ _ ih

theorem eraseFirstNid_not_mem (l : List XMLElem) (n : Nat)
    (hnd : (l.map XMLElem.nid).Nodup) : n ∉ (eraseFirstNid l n).map XMLElem.nid := by
  induction l with
  | nil => simp [eraseFirstNid]
  | cons c cs ih =>
    rw [List.map_cons, List.nodup_cons] at hnd
    by_cases h : c.nid = n
    · simp only [eraseFirstNid, if_pos h]
      exact fun hm => hnd.1 (h ▸ hm)
    · simp only [eraseFirstNid, if_neg h, List.map_cons, List.mem_cons]
      rintro (hm | hm)
      · exact h hm.symm
      · exact ih hnd.2 hm

theorem eraseFirstNid_append_left (u w : List XMLElem) (n : Nat)
    (hmem : n ∈ u.map XMLElem.nid) :
    eraseFirstNid (u ++ w) n = eraseFirstNid u n ++ w := by
  induction u with
  | nil => cases hmem
  | cons c cs ih =>
    by_cases h : c.nid = n
    · simp [eraseFirstNid, h]
    · rw [List.map_cons, List.mem_cons] at hmem
      rcases hmem with hm | hm
      · exact absurd hm.symm h
      · simp [eraseFirstNid, h, ih hm]

theorem removeLoop_sublist (bs : List Char) :
    ∀ (snap cur cs : List XMLElem), removeLoop bs snap cur = .ok cs →
      cs.Sublist cur := by
  intro snap
  induction snap with
  | nil =>
    intro cur cs h
    simp only [removeLoop, Except.ok.injEq] at h
    exact h ▸ List.Sublist.refl cur
  | cons z rest ih =>
    intro cur cs h
    cases hz : alookup z.attrib xmlIdK with
    | none => simp only [removeLoop, hz] at h; cases h
    | some zid =>
      simp only [removeLoop, hz] at h
      by_cases hc : containsL bs zid.toList
      · rw [if_pos hc] at h
        exact ih cur cs h
      · rw [if_neg hc] at h
        exact (ih _ cs h).trans (eraseFirstNid_sublist cur z.nid)

theorem removeLoop_removed (bs : List Char) :
    ∀ (snap cur cs : List XMLElem),
      (cur.map XMLElem.nid).Nodup → snap.Sublist cur →
      removeLoop bs snap cur = .ok cs →
      ∀ z ∈ snap, ∀ zid, alookup z.attrib xmlIdK = some zid →
        containsL bs zid.toList = false → z.nid ∉ cs.map XMLElem.nid := by
  intro snap
  induction snap with
  | nil =>
    intro cur cs _ _ _ z hz
    cases hz
  | cons z0 rest ih =>
    intro cur cs hnd hsub h z hz zid hid hcon
    cases hz0 : alookup z0.attrib xmlIdK with
    | none => simp only [removeLoop, hz0] at h; cases h
    | some zid0 =>
      simp only [removeLoop, hz0] at h
      rcases List.mem_cons.mp hz with rfl | hz2
      · rw [hz0] at hid
        injection hid with hid
        subst hid
        rw [if_neg (by simpa [String.toList] using hcon)] at h
        have hnotin : z.nid ∉ (eraseFirstNid cur z.nid).map XMLElem.nid :=
          eraseFirstNid_not_mem cur z.nid hnd
        have hsubl := (removeLoop_sublist bs rest _ cs h).map XMLElem.nid
        exact fun hmem => hnotin (hsubl.subset hmem)
      · by_cases hc : containsL bs zid0.toList
        · rw [if_pos hc] at h
          exact ih cur cs hnd (List.sublist_of_cons_sublist hsub) h z hz2 zid hid hcon
        · rw [if_neg hc] at h
          obtain ⟨r1, r2, hcur, hz0r1, hrest⟩ := List.cons_sublist_iff.mp hsub
          have hz0n : z0.nid ∈ r1.map XMLElem.nid := List.mem_map_of_mem _ hz0r1
          have hsplit : eraseFirstNid cur z0.nid = eraseFirstNid r1 z0.nid ++ r2 := by
            rw [hcur]
            exact eraseFirstNid_append_left r1 r2 z0.nid hz0n
          have hnd2 : ((eraseFirstNid cur z0.nid).map XMLElem.nid).Nodup :=
            List.Nodup.sublist ((eraseFirstNid_sublist cur z0.nid).map XMLElem.nid) hnd
          have hsub2 : rest.Sublist (eraseFirstNid cur z0.nid) := by
            rw [hsplit]
            exact hrest.trans (List.sublist_append_right ..)
          exact ih _ cs hnd2 hsub2 h z hz2 zid hid hcon

theorem removeLoop_ids (bs : List Char) :
    ∀ (snap cur cs : List XMLElem), removeLoop bs snap cur = .ok cs →
      ∀ z ∈ snap, ∃ zid, alookup z.attrib xmlIdK = some zid := by
  intro snap
  induction snap with
  | nil =>
    intro cur cs _ z hz
    cases hz
  | cons z0 rest ih =>
    intro cur cs h z hz
    cases hz0 : alookup z0.attrib xmlIdK with
    | none => simp only [removeLoop, hz0] at h; cases h
    | some zid0 =>
      simp only [removeLoop, hz0] at h
      rcases List.mem_cons.mp hz with rfl | hz2
      · exact ⟨zid0, hz0⟩
      · by_cases hc : containsL bs zid0.toList
        · rw [if_pos hc] at h
          exact ih cur cs h z hz2
        · rw [if_neg hc] at h
          exact ih _ cs h z hz2

theorem removeLoop_kept (bs : List Char) (snap cur cs : List XMLElem)
    (hnd : (cur.map XMLElem.nid).Nodup) (hsub : snap.Sublist cur)
    (h : removeLoop bs snap cur = .ok cs) :
    ∀ z ∈ cs, z ∈ snap →
      ∃ zid, alookup z.attrib xmlIdK = some zid ∧ containsL bs zid.toList = true := by
  intro z hzcs hzsnap
  obtain ⟨zid, hid⟩ := removeLoop_ids bs snap cur cs h z hzsnap
  refine ⟨zid, hid, ?_⟩
  by_cases hc : containsL bs zid.toList
  · exact hc
  · exact absurd (List.mem_map_of_mem _ hzcs)
      (removeLoop_removed bs snap cur cs hnd hsub h z hzsnap zid hid
        (Bool.not_eq_true _ ▸ hc))

theorem removeLoop_noop (bs : List Char) :
    ∀ (snap cur : List XMLElem),
      (∀ z ∈ snap, ∃ zid, alookup z.attrib xmlIdK = some zid ∧
        containsL bs zid.toList = true) →
      removeLoop bs snap cur = .ok cur := by
  intro snap
  induction snap with
  | nil => intro cur _; rfl
  | cons z0 rest ih =>
    intro cur hall
    obtain ⟨zid, hid, hc⟩ := hall z0 (List.mem_cons_self ..)
    simp only [removeLoop, hid]
    rw [if_pos hc]
    exact ih cur (fun z hz => hall z (List.mem_cons_of_mem _ hz))

/-! ## Lemmas on the rebuild combinators -/

theorem replaceStep_none_of_find_none (t : String) (g2 : XMLElem → Option XMLElem) :
    ∀ l, findChildL l t = none → replaceStep t g2 l = none := by
  intro l
  induction l with
  | nil => intro _; rfl
  | cons c cs ih =>
    intro h
    by_cases hc : c.tag = t
    · rw [findChildL, if_pos hc] at h
      cases h
    · rw [findChildL, if_neg hc] at h
      rw [replaceStep, if_neg hc, ih h]
      rfl

theorem replace_at_first (t : String) (g2 : XMLElem → Option XMLElem) :
    ∀ (l : List XMLElem) (m m2 : XMLElem), findChildL l t = some m → g2 m = some m2 →
      m2.tag = t →
      ∃ l2, replaceStep t g2 l = some l2 ∧
        findChildL l2 t = some m2 ∧
        (∀ t2, t2 ≠ t → findChildL l2 t2 = findChildL l t2) := by
  intro l
  induction l with
  | nil => intro m m2 h _ _; cases h
  | cons c cs ih =>
    intro m m2 h hg hm2
    by_cases hc : c.tag = t
    · rw [findChildL, if_pos hc] at h
      injection h with h
      subst h
      refine ⟨m2 :: cs, ?_, ?_, ?_⟩
      · rw [replaceStep, if_pos hc, hg]
      · rw [findChildL, if_pos hm2]
      · intro t2 ht2
        have h1 : ¬ (m2.tag = t2) := by
          rw [hm2]
          exact fun hh => ht2 hh.symm
        have h2 : ¬ (c.tag = t2) := by
          rw [hc]
          exact fun hh => ht2 hh.symm
        rw [findChildL, if_neg h1, findChildL, if_neg h2]
    · rw [findChildL, if_neg hc] at h
      obtain ⟨cs2, hr, hf, hp⟩ := ih m m2 h hg hm2
      refine ⟨c :: cs2, ?_, ?_, ?_⟩
      · rw [replaceStep, if_neg hc, hr]
        rfl
      · rw [findChildL, if_neg hc]
        exact hf
      · intro t2 ht2
        by_cases hct : c.tag = t2
        · rw [findChildL, if_pos hct, findChildL, if_pos hct]
        · rw [findChildL, if_neg hct, findChildL, if_neg hct]
          exact hp t2 ht2

theorem replace_at_first_self (t : String) (g2 : XMLElem → Option XMLElem) :
    ∀ (l : List XMLElem) (m : XMLElem), findChildL l t = some m → g2 m = some m →
      replaceStep t g2 l = some l := by
  intro l
  induction l with
  | nil => intro m h; cases h
  | cons c cs ih =>
    intro m h hg
    by_cases hc : c.tag = t
    · rw [findChildL, if_pos hc] at h
      injection h with h
      subst h
      rw [replaceStep, if_pos hc, hg]
    · rw [findChildL, if_neg hc] at h
      rw [replaceStep, if_neg hc, ih m h hg]
      rfl

theorem replaceFS_spec (surf ns : XMLElem) (htag : ns.tag = meiT "surface") :
    ∀ cl : List XMLElem, findFS cl = some surf →
    ∃ cl2, replaceFS cl ns = some cl2 ∧ findFS cl2 = some ns ∧
      (∀ t2, t2 ≠ meiT "facsimile" → findChildL cl2 t2 = findChildL cl t2) := by
  intro cl
  induction cl with
  | nil => intro h; cases h
  | cons c cs ih =>
    intro h
    by_cases hc : c.tag = meiT "facsimile"
    · cases hgc : findChildL c.children (meiT "surface") with
      | some s =>
        rw [findFS, findStep, if_pos hc, hgc] at h
        injection h with h
        rw [h] at hgc
        obtain ⟨cc2, hr, hf, _⟩ :=
          replace_at_first (meiT "surface") (fun _ => some ns) c.children surf ns hgc rfl htag
        refine ⟨c.withChildren cc2 :: cs, ?_, ?_, ?_⟩
        · rw [replaceFS, replaceStep, if_pos hc, hr]
          rfl
        · rw [findFS, findStep, if_pos (tag_withChildren c cc2 ▸ hc),
            children_withChildren, hf]
        · intro t2 ht2
          have h1 : ¬ ((c.withChildren cc2).tag = t2) := by
            rw [tag_withChildren, hc]
            exact fun hh => ht2 hh.symm
          have h2 : ¬ (c.tag = t2) := by
            rw [hc]
            exact fun hh => ht2 hh.symm
          rw [findChildL, if_neg h1, findChildL, if_neg h2]
      | none =>
        rw [findFS, findStep, if_pos hc, hgc] at h
        have h2 : findFS cs = some surf := h
        obtain ⟨cl2, hr, hf, hp⟩ := ih h2
        have hnone : replaceStep (meiT "surface") (fun _ => some ns) c.children = none :=
          replaceStep_none_of_find_none (meiT "surface") _ c.children hgc
        refine ⟨c :: cl2, ?_, ?_, ?_⟩
        · rw [replaceFS, replaceStep, if_pos hc, hnone]
          rw [replaceFS] at hr
          rw [hr]
          rfl
        · rw [findFS, findStep, if_pos hc, hgc]
          exact hf
        · intro t2 ht2
          by_cases hct : c.tag = t2
          · rw [findChildL, if_pos hct, findChildL, if_pos hct]
          · rw [findChildL, if_neg hct, findChildL, if_neg hct]
            exact hp t2 ht2
    · rw [findFS, findStep, if_neg hc] at h
      have h2 : findFS cs = some surf := h
      obtain ⟨cl2, hr, hf, hp⟩ := ih h2
      refine ⟨c :: cl2, ?_, ?_, ?_⟩
      · rw [replaceFS, replaceStep, if_neg hc]
        rw [replaceFS] at hr
        rw [hr]
        rfl
      · rw [findFS, findStep, if_neg hc]
        exact hf
      · intro t2 ht2
        by_cases hct : c.tag = t2
        · rw [findChildL, if_pos hct, findChildL, if_pos hct]
        · rw [findChildL, if_neg hct, findChildL, if_neg hct]
          exact hp t2 ht2

theorem replaceFS_self (surf : XMLElem) :
    ∀ cl : List XMLElem, findFS cl = some surf → replaceFS cl surf = some cl := by
  intro cl
  induction cl with
  | nil => intro h; cases h
  | cons c cs ih =>
    intro h
    by_cases hc : c.tag = meiT "facsimile"
    · cases hgc : findChildL c.children (meiT "surface") with
      | some s =>
        rw [findFS, findStep, if_pos hc, hgc] at h
        injection h with h
        rw [h] at hgc
        have hr : replaceStep (meiT "surface") (fun _ => some surf) c.children
            = some c.children :=
          replace_at_first_self (meiT "surface") _ c.children surf hgc rfl
        rw [replaceFS, replaceStep, if_pos hc, hr]
        simp only [Option.map, withChildren_children]
      | none =>
        rw [findFS, findStep, if_pos hc, hgc] at h
        have h2 : findFS cs = some surf := h
        have hr := ih h2
        have hnone : replaceStep (meiT "surface") (fun _ => some surf) c.children = none :=
          replaceStep_none_of_find_none (meiT "surface") _ c.children hgc
        rw [replaceFS, replaceStep, if_pos hc, hnone]
        rw [replaceFS] at hr
        rw [hr]
        rfl
    · rw [findFS, findStep, if_neg hc] at h
      have h2 : findFS cs = some surf := h
      have hr := ih h2
      rw [replaceFS, replaceStep, if_neg hc]
      rw [replaceFS] at hr
      rw [hr]
      rfl

theorem findChildL_tag : ∀ (l : List XMLElem) (t : String) (x : XMLElem),
    findChildL l t = some x → x.tag = t := by
  intro l t
  induction l with
  | nil => intro x h; cases h
  | cons c cs ih =>
    intro x h
    by_cases hc : c.tag = t
    · rw [findChildL, if_pos hc] at h
      injection h with h
      rw [← h]
      exact hc
    · rw [findChildL, if_neg hc] at h
      exact ih x h

theorem findStep_some (t : String) (g : XMLElem → Option XMLElem) :
    ∀ (l : List XMLElem) (x : XMLElem), findStep t g l = some x →
      ∃ c, c ∈ l ∧ c.tag = t ∧ g c = some x := by
  intro l
  induction l with
  | nil => intro x h; cases h
  | cons c cs ih =>
    intro x h
    by_cases hc : c.tag = t
    · rw [findStep, if_pos hc] at h
      cases hg : g c with
      | some y =>
        rw [hg] at h
        injection h with h
        subst h
        exact ⟨c, List.mem_cons_self .., hc, hg⟩
      | none =>
        rw [hg] at h
        obtain ⟨c2, hmem, htag, hgc⟩ := ih x h
        exact ⟨c2, List.mem_cons_of_mem _ hmem, htag, hgc⟩
    · rw [findStep, if_neg hc] at h
      obtain ⟨c2, hmem, htag, hgc⟩ := ih x h
      exact ⟨c2, List.mem_cons_of_mem _ hmem, htag, hgc⟩

theorem findFS_tag (cl : List XMLElem) (s : XMLElem) (h : findFS cl = some s) :
    s.tag = meiT "surface" := by
  obtain ⟨c, _, _, hg⟩ := findStep_some (meiT "facsimile") _ cl s h
  exact findChildL_tag c.children (meiT "surface") s hg

/-! ## Characterization of `remove_unreferenced_zones` -/

theorem ruz_spec (d m surf b : XMLElem) (cs : List XMLElem)
    (hm : findChild d (meiT "music") = some m)
    (hs : findFS m.children = some surf)
    (hb : findChild m (meiT "body") = some b)
    (hloop : removeLoop (tostringL b) (zoneChildren surf) surf.children = .ok cs) :
    ∃ d2, remove_unreferenced_zones d = .ok d2 ∧
      ∃ m2, findChild d2 (meiT "music") = some m2 ∧
        findFS m2.children = some (surf.withChildren cs) ∧
        findChild m2 (meiT "body") = some b := by
  have htag : (surf.withChildren cs).tag = meiT "surface" := by
    rw [tag_withChildren]
    exact findFS_tag m.children surf hs
  obtain ⟨cl2, hrfs, hffs, hpres⟩ := replaceFS_spec surf (surf.withChildren cs) htag m.children hs
  have hg : ((replaceFS m.children (surf.withChildren cs)).map m.withChildren)
      = some (m.withChildren cl2) := by
    rw [hrfs]
    rfl
  have hmtag : (m.withChildren cl2).tag = meiT "music" := by
    rw [tag_withChildren]
    exact findChildL_tag d.children (meiT "music") m hm
  obtain ⟨l2, hrs, hfind, _⟩ := replace_at_first (meiT "music")
    (fun mm => (replaceFS mm.children (surf.withChildren cs)).map mm.withChildren)
    d.children m (m.withChildren cl2) hm hg hmtag
  refine ⟨d.withChildren l2, ?_, m.withChildren cl2, ?_, ?_, ?_⟩
  · simp only [remove_unreferenced_zones, hm, hs, hb, hloop, hrs]
  · rw [findChild, children_withChildren]
    exact hfind
  · rw [children_withChildren]
    exact hffs
  · rw [findChild, children_withChildren]
    rw [hpres (meiT "body") (by decide)]
    exact hb

theorem ruz_inv (d d2 m surf b : XMLElem)
    (hm : findChild d (meiT "music") = some m)
    (hs : findFS m.children = some surf)
    (hb : findChild m (meiT "body") = some b)
    (hr : remove_unreferenced_zones d = .ok d2) :
    ∃ cs, removeLoop (tostringL b) (zoneChildren surf) surf.children = .ok cs := by
  simp only [remove_unreferenced_zones, hm, hs, hb] at hr
  cases hloop : removeLoop (tostringL b) (zoneChildren surf) surf.children with
  | error e =>
    rw [hloop] at hr
    cases hr
  | ok cs => exact ⟨cs, rfl⟩

/-! ## Claim C1 -/

/-- C1: after a successful run of `remove_unreferenced_zones` on a document
whose `music`, `facsimile/surface` and `body` nodes exist (and whose surface
children have distinct identities, as parsed documents do), every zone child
remaining under the surface has an `xml:id` whose bare form is a substring of
the serialized body, and every defined zone whose bare id is not such a
substring has been removed from the surface. -/
theorem C1_remove_unreferenced_zones (d d2 m surf b : XMLElem)
    (hnd : (surf.children.map XMLElem.nid).Nodup)
    (hm : findChild d (meiT "music") = some m)
    (hs : findFS m.children = some surf)
    (hb : findChild m (meiT "body") = some b)
    (hr : remove_unreferenced_zones d = .ok d2) :
    ∃ m2 surf2, findChild d2 (meiT "music") = some m2 ∧
      findChild m2 (meiT "body") = some b ∧
      findFS m2.children = some surf2 ∧
      (∀ z ∈ zoneChildren surf2, ∃ zid, alookup z.attrib xmlIdK = some zid ∧
        containsL (tostringL b) zid.toList = true) ∧
      (∀ z ∈ zoneChildren surf, ∀ zid, alookup z.attrib xmlIdK = some zid →
        containsL (tostringL b) zid.toList = false →
        z.nid ∉ surf2.children.map XMLElem.nid) := by
  obtain ⟨cs, hloop⟩ := ruz_inv d d2 m surf b hm hs hb hr
  obtain ⟨d2x, hr2, m2, hfm, hffs, hfb⟩ := ruz_spec d m surf b cs hm hs hb hloop
  rw [hr] at hr2
  injection hr2 with hr2
  subst hr2
  have hsnap : (zoneChildren surf).Sublist surf.children := List.filter_sublist _
  refine ⟨m2, surf.withChildren cs, hfm, hfb, hffs, ?_, ?_⟩
  · intro z hz
    rw [zoneChildren, children_withChildren, List.mem_filter] at hz
    have hzcs : z ∈ cs := hz.1
    have hzsnap : z ∈ zoneChildren surf := by
      rw [zoneChildren, List.mem_filter]
      exact ⟨(removeLoop_sublist (tostringL b) (zoneChildren surf) surf.children cs
        hloop).subset hzcs, hz.2⟩
    exact removeLoop_kept (tostringL b) (zoneChildren surf) surf.children cs
      hnd hsnap hloop z hzcs hzsnap
  · intro z hz zid hid hcon
    rw [children_withChildren]
    exact removeLoop_removed (tostringL b) (zoneChildren surf) surf.children cs
      hnd hsnap hloop z hz zid hid hcon

/-! ## Claim C7 -/

/-- C7: `remove_unreferenced_zones` is idempotent — a second run on the
output of a successful first run succeeds and changes nothing. -/
theorem C7_remove_unreferenced_idempotent (d d2 m surf b : XMLElem)
    (hnd : (surf.children.map XMLElem.nid).Nodup)
    (hm : findChild d (meiT "music") = some m)
    (hs : findFS m.children = some surf)
    (hb : findChild m (meiT "body") = some b)
    (hr : remove_unreferenced_zones d = .ok d2) :
    remove_unreferenced_zones d2 = .ok d2 := by
  obtain ⟨cs, hloop⟩ := ruz_inv d d2 m surf b hm hs hb hr
  obtain ⟨d2x, hr2, m2, hfm, hffs, hfb⟩ := ruz_spec d m surf b cs hm hs hb hloop
  rw [hr] at hr2
  injection hr2 with hr2
  subst hr2
  have hsnap : (zoneChildren surf).Sublist surf.children := List.filter_sublist _
  have hkept : ∀ z ∈ zoneChildren (surf.withChildren cs),
      ∃ zid, alookup z.attrib xmlIdK = some zid ∧
        containsL (tostringL b) zid.toList = true := by
    intro z hz
    rw [zoneChildren, children_withChildren, List.mem_filter] at hz
    have hzcs : z ∈ cs := hz.1
    have hzsnap : z ∈ zoneChildren surf := by
      rw [zoneChildren, List.mem_filter]
      exact ⟨(removeLoop_sublist (tostringL b) (zoneChildren surf) surf.children cs
        hloop).subset hzcs, hz.2⟩
    exact removeLoop_kept (tostringL b) (zoneChildren surf) surf.children cs
      hnd hsnap hloop z hzcs hzsnap
  have hloop2 : removeLoop (tostringL b) (zoneChildren (surf.withChildren cs))
      (surf.withChildren cs).children = .ok ((surf.withChildren cs).children) :=
    removeLoop_noop (tostringL b) _ _ hkept
  have hrepl : replaceFS m2.children (surf.withChildren cs) = some m2.children :=
    replaceFS_self (surf.withChildren cs) m2.children hffs
  have hg2 : ((replaceFS m2.children (surf.withChildren cs)).map m2.withChildren)
      = some m2 := by
    rw [hrepl]
    simp only [Option.map, withChildren_children]
  have houter : replaceStep (meiT "music")
      (fun mm => (replaceFS mm.children (surf.withChildren cs)).map mm.withChildren)
      d2.children = some d2.children :=
    replace_at_first_self (meiT "music") _ d2.children m2 hfm hg2
  simp only [remove_unreferenced_zones, hfm, hffs, hfb, hloop2,
    withChildren_children, houter]

def c1surf : XMLElem :=
  xel 3 (meiT "surface") [] none none [c5zone 4 "z1", c5zone 5 "qq77"]

def c1body : XMLElem :=
  xel 20 (meiT "body") [] none none
    [xel 21 (meiT "mdiv") [] none none
      [xel 22 (meiT "score") [] none none
        [xel 23 (meiT "section") [] none none
          [xel 24 (meiT "staff") [] none none
            [xel 25 (meiT "layer") [] none none [refEl 30 "e1" "#z1" none []]]]]]]

def c1music : XMLElem :=
  xel 1 (meiT "music") [] none none
    [xel 2 (meiT "facsimile") [] none none [c1surf], c1body]

def c1doc : XMLElem := xel 0 (meiT "mei") [] none none [c1music]

def c1res : XMLElem :=
  xel 0 (meiT "mei") [] none none
    [xel 1 (meiT "music") [] none none
      [xel 2 (meiT "facsimile") [] none none
        [xel 3 (meiT "surface") [] none none [c5zone 4 "z1"]], c1body]]

/-- Witness for C1: on a document with a referenced zone `z1` and an
unreferenced zone `qq77`, the run succeeds and the theorem's conclusions hold
at the concrete output. -/
theorem C1_witness :
    ∃ m2 surf2, findChild c1res (meiT "music") = some m2 ∧
      findChild m2 (meiT "body") = some c1body ∧
      findFS m2.children = some surf2 ∧
      (∀ z ∈ zoneChildren surf2, ∃ zid, alookup z.attrib xmlIdK = some zid ∧
        containsL (tostringL c1body) zid.toList = true) ∧
      (∀ z ∈ zoneChildren c1surf, ∀ zid, alookup z.attrib xmlIdK = some zid →
        containsL (tostringL c1body) zid.toList = false →
        z.nid ∉ surf2.children.map XMLElem.nid) :=
  C1_remove_unreferenced_zones c1doc c1res c1music c1surf c1body
    (by decide) (by decide) (by decide) (by decide) (by decide)

/-- Witness for C7: a second run of `remove_unreferenced_zones` on the
concrete output of the first changes nothing. -/
theorem C7_witness : remove_unreferenced_zones c1res = .ok c1res :=
  C7_remove_unreferenced_idempotent c1doc c1res c1music c1surf c1body
    (by decide) (by decide) (by decide) (by decide) (by decide)

/-! ## Node-identity reasoning for deletions -/

def nidsOfL : List XMLElem → List Nat
  | [] => []
  | c :: cs => nidsOf c ++ nidsOfL cs

theorem nidsOfF_toList : ∀ f : XMLForest, nidsOfF f = nidsOfL f.toList
  | .nil => rfl
  | .cons c f => by
    rw [XMLForest.toList, nidsOfL, nidsOfF, nidsOfF_toList f]

theorem nidsOfF_ofList (l : List XMLElem) : nidsOfF (XMLForest.ofList l) = nidsOfL l := by
  rw [nidsOfF_toList, toList_ofList]

def locateNidL : List XMLElem → Nat → Option XMLElem
  | [], _ => none
  | c :: cs, n =>
    match locateNid c n with
    | some x => some x
    | none => locateNidL cs n

theorem locateNidF_toList : ∀ (f : XMLForest) (n : Nat),
    locateNidF f n = locateNidL f.toList n
  | .nil, _ => rfl
  | .cons c f, n => by
    rw [XMLForest.toList, locateNidL, locateNidF]
    cases locateNid c n with
    | some x => rfl
    | none => rw [locateNidF_toList f n]

theorem nidsOfL_append (u w : List XMLElem) :
    nidsOfL (u ++ w) = nidsOfL u ++ nidsOfL w := by
  induction u with
  | nil => rfl
  | cons c cs ih => rw [List.cons_append, nidsOfL, nidsOfL, ih, List.append_assoc]

theorem nids_head (e : XMLElem) : e.nid ∈ nidsOf e := by
  cases e
  rw [nidsOf]
  exact List.mem_cons_self ..

theorem nidsOf_unfold (e : XMLElem) : nidsOf e = e.nid :: nidsOfL e.children := by
  cases e
  rw [nidsOf, nidsOfF_toList]
  rfl

theorem nidsOfL_mem_of_mem (l : List XMLElem) (x : XMLElem) (hx : x ∈ l) :
    ∀ q, q ∈ nidsOf x → q ∈ nidsOfL l := by
  induction l with
  | nil => cases hx
  | cons c cs ih =>
    intro q hq
    rw [nidsOfL, List.mem_append]
    rcases List.mem_cons.mp hx with rfl | hx2
    · exact Or.inl hq
    · exact Or.inr (ih hx2 q hq)

theorem nidsOf_child_sublist (l : List XMLElem) (x : XMLElem) (hx : x ∈ l) :
    (nidsOf x).Sublist (nidsOfL l) := by
  induction l with
  | nil => cases hx
  | cons c cs ih =>
    rw [nidsOfL]
    rcases List.mem_cons.mp hx with rfl | hx2
    · exact List.sublist_append_left ..
    · exact (ih hx2).trans (List.sublist_append_right ..)

theorem erase_exists_split (l : List XMLElem) (c : Nat)
    (h : l.any (fun x => x.nid == c)) :
    ∃ u rc w, l = u ++ rc :: w ∧ rc.nid = c ∧ ∀ x ∈ u, ¬ (x.nid = c) := by
  induction l with
  | nil => cases h
  | cons x xs ih =>
    by_cases hx : x.nid = c
    · exact ⟨[], x, xs, rfl, hx, by intro y hy; cases hy⟩
    · have h2 : xs.any (fun y => y.nid == c) := by
        rw [List.any_cons] at h
        rcases Bool.or_eq_true .. ▸ h with h2 | h2
        · exact absurd (by simpa using h2) hx
        · exact h2
      obtain ⟨u, rc, w, hl, hrc, hu⟩ := ih h2
      refine ⟨x :: u, rc, w, by rw [hl, List.cons_append], hrc, ?_⟩
      intro y hy
      rcases List.mem_cons.mp hy with rfl | hy2
      · exact hx
      · exact hu y hy2

theorem eraseFirstNid_of_split (u w : List XMLElem) (rc : XMLElem) (c : Nat)
    (hrc : rc.nid = c) (hu : ∀ x ∈ u, ¬ (x.nid = c)) :
    eraseFirstNid (u ++ rc :: w) c = u ++ w := by
  induction u with
  | nil => rw [List.nil_append, eraseFirstNid, if_pos hrc, List.nil_append]
  | cons x xs ih =>
    rw [List.cons_append, eraseFirstNid, if_neg (hu x (List.mem_cons_self ..)),
      ih (fun y hy => hu y (List.mem_cons_of_mem _ hy)), List.cons_append]

mutual

theorem nidsOf_eq_map : ∀ e : XMLElem, nidsOf e = (preorderSelf e).map XMLElem.nid
  | .mk n t a tx tl f => by
    rw [nidsOf, preorderSelf, List.map_cons, nidsOfF_eq_map f]
    rfl

theorem nidsOfF_eq_map : ∀ f : XMLForest, nidsOfF f = (preorderF f).map XMLElem.nid
  | .nil => rfl
  | .cons c f => by
    rw [nidsOfF, preorderF, List.map_append, nidsOf_eq_map c, nidsOfF_eq_map f]

end

mutual

theorem locateNid_none_iff : ∀ (e : XMLElem) (q : Nat),
    locateNid e q = none ↔ q ∉ nidsOf e
  | .mk n t a tx tl f, q => by
    by_cases h : n = q
    · rw [locateNid, if_pos h, nidsOf]
      subst h
      simp
    · rw [locateNid, if_neg h, nidsOf, locateNidF_none_iff f q]
      constructor
      · intro hn hq
        rcases List.mem_cons.mp hq with rfl | hq2
        · exact h rfl
        · exact hn hq2
      · intro hn hq
        exact hn (List.mem_cons_of_mem _ hq)

theorem locateNidF_none_iff : ∀ (f : XMLForest) (q : Nat),
    locateNidF f q = none ↔ q ∉ nidsOfF f
  | .nil, q => by simp [locateNidF, nidsOfF]
  | .cons c f, q => by
    rw [locateNidF, nidsOfF]
    cases hc : locateNid c q with
    | some x =>
      have hq : q ∈ nidsOf c := by
        by_contra hq
        rw [← locateNid_none_iff c q] at hq
        rw [hq] at hc
        cases hc
      simp only []
      constructor
      · intro hn; cases hn
      · intro hn
        exact absurd (List.mem_append.mpr (Or.inl hq)) hn
    | none =>
      have hq : q ∉ nidsOf c := (locateNid_none_iff c q).mp hc
      simp only []
      rw [locateNidF_none_iff f q]
      constructor
      · intro hn hm
        rcases List.mem_append.mp hm with hm2 | hm2
        · exact hq hm2
        · exact hn hm2
      · intro hn hm
        exact hn (List.mem_append.mpr (Or.inr hm))

end

mutual

theorem locateNid_some_mem : ∀ (e : XMLElem) (q : Nat) (x : XMLElem),
    locateNid e q = some x → x ∈ preorderSelf e ∧ x.nid = q
  | .mk n t a tx tl f, q, x => by
    intro h
    by_cases hn : n = q
    · rw [locateNid, if_pos hn] at h
      injection h with h
      rw [← h, preorderSelf_eq]
      exact ⟨List.mem_cons_self .., hn⟩
    · rw [locateNid, if_neg hn] at h
      have := locateNidF_some_mem f q x h
      rw [preorderSelf_eq]
      exact ⟨List.mem_cons_of_mem _ this.1, this.2⟩

theorem locateNidF_some_mem : ∀ (f : XMLForest) (q : Nat) (x : XMLElem),
    locateNidF f q = some x → x ∈ preorderF f ∧ x.nid = q
  | .nil, q, x => by intro h; cases h
  | .cons c f, q, x => by
    intro h
    rw [locateNidF] at h
    cases hc : locateNid c q with
    | some y =>
      rw [hc] at h
      injection h with h
      subst h
      have := locateNid_some_mem c q y hc
      rw [preorderF]
      exact ⟨List.mem_append.mpr (Or.inl this.1), this.2⟩
    | none =>
      rw [hc] at h
      have := locateNidF_some_mem f q x h
      rw [preorderF]
      exact ⟨List.mem_append.mpr (Or.inr this.1), this.2⟩

end

mutual

theorem preorder_trans : ∀ (e x y : XMLElem),
    x ∈ preorderSelf e → y ∈ preorderSelf x → y ∈ preorderSelf e
  | .mk n t a tx tl f, x, y => by
    intro hx hy
    rw [preorderSelf_eq] at hx
    rcases List.mem_cons.mp hx with rfl | hx2
    · exact hy
    · have hx3 : x ∈ preorderF f := hx2
      rw [preorderSelf_eq]
      exact List.mem_cons_of_mem _ (preorderF_trans f x y hx3 hy)

theorem preorderF_trans : ∀ (f : XMLForest) (x y : XMLElem),
    x ∈ preorderF f → y ∈ preorderSelf x → y ∈ preorderF f
  | .nil, x, y => by intro hx; cases hx
  | .cons c f, x, y => by
    intro hx hy
    rw [preorderF] at hx
    rw [preorderF]
    rcases List.mem_append.mp hx with hx2 | hx2
    · exact List.mem_append.mpr (Or.inl (preorder_trans c x y hx2 hy))
    · exact List.mem_append.mpr (Or.inr (preorderF_trans f x y hx2 hy))

end

mutual

theorem locateNid_of_mem : ∀ (e x : XMLElem), (nidsOf e).Nodup →
    x ∈ preorderSelf e → locateNid e x.nid = some x
  | .mk n t a tx tl f, x => by
    intro hnd hx
    rw [nidsOf] at hnd
    rw [preorderSelf_eq] at hx
    by_cases hn : n = x.nid
    · rw [locateNid, if_pos hn]
      rcases List.mem_cons.mp hx with rfl | hx2
      · rfl
      · have hx3 : x ∈ preorderF f := hx2
        have : x.nid ∈ nidsOfF f := by
          rw [nidsOfF_eq_map]
          exact List.mem_map_of_mem _ hx3
        rw [List.nodup_cons] at hnd
        exact absurd (hn ▸ this) hnd.1
    · rw [locateNid, if_neg hn]
      rcases List.mem_cons.mp hx with rfl | hx2
      · exact absurd rfl hn
      · rw [List.nodup_cons] at hnd
        exact locateNidF_of_mem f x hnd.2 hx2

theorem locateNidF_of_mem : ∀ (f : XMLForest) (x : XMLElem), (nidsOfF f).Nodup →
    x ∈ preorderF f → locateNidF f x.nid = some x
  | .nil, x => by intro _ hx; cases hx
  | .cons c f, x => by
    intro hnd hx
    rw [nidsOfF, List.nodup_append] at hnd
    rw [preorderF] at hx
    rw [locateNidF]
    rcases List.mem_append.mp hx with hx2 | hx2
    · rw [locateNid_of_mem c x hnd.1 hx2]
    · have hmem : x.nid ∈ nidsOfF f := by
        rw [nidsOfF_eq_map]
        exact List.mem_map_of_mem _ hx2
      have hnot : x.nid ∉ nidsOf c := fun hc => hnd.2.2 hc hmem
      rw [(locateNid_none_iff c x.nid).mpr hnot]
      exact locateNidF_of_mem f x hnd.2.1 hx2

end

theorem nidsOfL_erase_sublist (l : List XMLElem) (c : Nat) :
    (nidsOfL (eraseFirstNid l c)).Sublist (nidsOfL l) := by
  induction l with
  | nil => exact List.Sublist.refl _
  | cons x xs ih =>
    by_cases hx : x.nid = c
    · rw [eraseFirstNid, if_pos hx, nidsOfL]
      exact List.sublist_append_right ..
    · rw [eraseFirstNid, if_neg hx, nidsOfL, nidsOfL]
      exact List.Sublist.append_left ih _

mutual

theorem eraseChildNid_not_present : ∀ (e : XMLElem) (p c : Nat), p ∉ nidsOf e →
    eraseChildNid p c e = .ok e
  | .mk n t a tx tl f, p, c => by
    intro hp
    rw [nidsOf] at hp
    have hn : ¬ (n = p) := fun h => hp (h ▸ List.mem_cons_self ..)
    rw [eraseChildNid, if_neg hn,
      eraseChildNidF_not_present f p c (fun hm => hp (List.mem_cons_of_mem _ hm))]

theorem eraseChildNidF_not_present : ∀ (f : XMLForest) (p c : Nat), p ∉ nidsOfF f →
    eraseChildNidF p c f = .ok f
  | .nil, p, c => by intro _; rfl
  | .cons c0 f, p, c => by
    intro hp
    rw [nidsOfF] at hp
    have h1 : p ∉ nidsOf c0 := fun hm => hp (List.mem_append.mpr (Or.inl hm))
    have h2 : p ∉ nidsOfF f := fun hm => hp (List.mem_append.mpr (Or.inr hm))
    rw [eraseChildNidF, eraseChildNid_not_present c0 p c h1,
      eraseChildNidF_not_present f p c h2]

end

mutual

theorem eraseChildNid_nids_sublist : ∀ (e e2 : XMLElem) (p c : Nat),
    eraseChildNid p c e = .ok e2 → (nidsOf e2).Sublist (nidsOf e)
  | .mk n t a tx tl f, e2, p, c => by
    intro h
    by_cases hn : n = p
    · rw [eraseChildNid, if_pos hn] at h
      by_cases hany : (XMLForest.toList f).any (fun x => x.nid == c)
      · rw [if_pos hany] at h
        injection h with h
        subst h
        rw [nidsOf, nidsOf, nidsOfF_ofList, nidsOfF_toList]
        exact List.Sublist.cons₂ n (nidsOfL_erase_sublist (XMLForest.toList f) c)
      · rw [if_neg hany] at h
        cases h
    · rw [eraseChildNid, if_neg hn] at h
      cases hf : eraseChildNidF p c f with
      | error e3 =>
        rw [hf] at h
        cases h
      | ok f2 =>
        rw [hf] at h
        injection h with h
        subst h
        rw [nidsOf, nidsOf]
        exact List.Sublist.cons₂ n (eraseChildNidF_nids_sublist f f2 p c hf)

theorem eraseChildNidF_nids_sublist : ∀ (f f2 : XMLForest) (p c : Nat),
    eraseChildNidF p c f = .ok f2 → (nidsOfF f2).Sublist (nidsOfF f)
  | .nil, f2, p, c => by
    intro h
    injection h with h
    subst h
    exact List.Sublist.refl _
  | .cons c0 f, f2, p, c => by
    intro h
    rw [eraseChildNidF] at h
    cases hc : eraseChildNid p c c0 with
    | error e3 =>
      rw [hc] at h
      cases h
    | ok c2 =>
      rw [hc] at h
      cases hf : eraseChildNidF p c f with
      | error e3 =>
        rw [hf] at h
        cases h
      | ok frest =>
        rw [hf] at h
        injection h with h
        subst h
        rw [nidsOfF, nidsOfF]
        exact List.Sublist.append (eraseChildNid_nids_sublist c0 c2 p c hc)
          (eraseChildNidF_nids_sublist f frest p c hf)

end

mutual

theorem erase_removed : ∀ (e e2 : XMLElem) (p c : Nat),
    (nidsOf e).Nodup → p ∈ nidsOf e → eraseChildNid p c e = .ok e2 →
    c ∈ nidsOf e ∧ c ∉ nidsOf e2
  | .mk n t a tx tl f, e2, p, c => by
    intro hnd hp h
    by_cases hn : n = p
    · rw [eraseChildNid, if_pos hn] at h
      by_cases hany : (XMLForest.toList f).any (fun x => x.nid == c)
      · rw [if_pos hany] at h
        injection h with h
        subst h
        obtain ⟨u, rc, w, hl, hrc, hu⟩ := erase_exists_split _ c hany
        have hnds : nidsOfF f = nidsOfL u ++ (nidsOf rc ++ nidsOfL w) := by
          rw [nidsOfF_toList, hl, nidsOfL_append, nidsOfL]
        have hcin : c ∈ nidsOf rc := hrc ▸ nids_head rc
        rw [nidsOf, hnds] at hnd
        rw [List.nodup_cons, List.nodup_append] at hnd
        have hnu : c ∉ nidsOfL u := fun hcu => hnd.2.2.2 hcu
          (List.mem_append.mpr (Or.inl hcin))
        have hnw : c ∉ nidsOfL w := by
          have h2 := hnd.2.2.1
          rw [List.nodup_append] at h2
          exact fun hcw => h2.2.2 hcin hcw
        have hcn : ¬ (c = n) := by
          intro hcn
          exact hnd.1 (by
            rw [hcn] at hcin
            exact List.mem_append.mpr (Or.inr (List.mem_append.mpr (Or.inl hcin))))
        constructor
        · rw [nidsOf, hnds]
          exact List.mem_cons_of_mem _
            (List.mem_append.mpr (Or.inr (List.mem_append.mpr (Or.inl hcin))))
        · rw [nidsOf, nidsOfF_ofList, hl, eraseFirstNid_of_split u w rc c hrc hu,
            nidsOfL_append, List.mem_cons]
          rintro (hc2 | hc2)
          · exact hcn hc2
          · rcases List.mem_append.mp hc2 with hc3 | hc3
            · exact hnu hc3
            · exact hnw hc3
      · rw [if_neg hany] at h
        cases h
    · rw [eraseChildNid, if_neg hn] at h
      cases hf : eraseChildNidF p c f with
      | error e3 =>
        rw [hf] at h
        cases h
      | ok f2 =>
        rw [hf] at h
        injection h with h
        subst h
        rw [nidsOf] at hnd hp ⊢
        rw [List.nodup_cons] at hnd
        have hpf : p ∈ nidsOfF f := by
          rcases List.mem_cons.mp hp with rfl | hp2
          · exact absurd rfl hn
          · exact hp2
        obtain ⟨hcin, hcout⟩ := eraseF_removed f f2 p c hnd.2 hpf hf
        refine ⟨List.mem_cons_of_mem _ hcin, ?_⟩
        rw [nidsOf, List.mem_cons]
        rintro (hc2 | hc2)
        · exact hnd.1 (hc2 ▸ hcin)
        · exact hcout hc2

theorem eraseF_removed : ∀ (f f2 : XMLForest) (p c : Nat),
    (nidsOfF f).Nodup → p ∈ nidsOfF f → eraseChildNidF p c f = .ok f2 →
    c ∈ nidsOfF f ∧ c ∉ nidsOfF f2
  | .nil, f2, p, c => by
    intro _ hp
    cases hp
  | .cons c0 f, f2, p, c => by
    intro hnd hp h
    rw [eraseChildNidF] at h
    rw [nidsOfF] at hnd hp ⊢
    rw [List.nodup_append] at hnd
    cases hc0 : eraseChildNid p c c0 with
    | error e3 =>
      rw [hc0] at h
      cases h
    | ok c02 =>
      rw [hc0] at h
      cases hf : eraseChildNidF p c f with
      | error e3 =>
        rw [hf] at h
        cases h
      | ok frest =>
        rw [hf] at h
        injection h with h
        subst h
        rw [nidsOfF]
        rcases List.mem_append.mp hp with hp2 | hp2
        · obtain ⟨hcin, hcout⟩ := erase_removed c0 c02 p c hnd.1 hp2 hc0
          have hpf : p ∉ nidsOfF f := fun hm => hnd.2.2 hp2 hm
          have hfok := eraseChildNidF_not_present f p c hpf
          rw [hfok] at hf
          injection hf with hf
          subst hf
          refine ⟨List.mem_append.mpr (Or.inl hcin), ?_⟩
          intro hm
          rcases List.mem_append.mp hm with hm2 | hm2
          · exact hcout hm2
          · exact hnd.2.2 hcin hm2
        · have hpc0 : p ∉ nidsOf c0 := fun hm => hnd.2.2 hm hp2
          have hc0ok := eraseChildNid_not_present c0 p c hpc0
          rw [hc0ok] at hc0
          injection hc0 with hc0
          subst hc0
          obtain ⟨hcin, hcout⟩ := eraseF_removed f frest p c hnd.2.1 hp2 hf
          refine ⟨List.mem_append.mpr (Or.inr hcin), ?_⟩
          intro hm
          rcases List.mem_append.mp hm with hm2 | hm2
          · exact hnd.2.2 hm2 hcin
          · exact hcout hm2

end

theorem locateNidL_append (u w : List XMLElem) (q : Nat) :
    locateNidL (u ++ w) q =
      (match locateNidL u q with
       | some x => some x
       | none => locateNidL w q) := by
  induction u with
  | nil => rfl
  | cons c cs ih =>
    rw [List.cons_append, locateNidL, locateNidL]
    cases locateNid c q with
    | some x => rfl
    | none => rw [ih]

theorem erase_determ (e e2 : XMLElem) (p c : Nat) (hp : p ∉ nidsOf e)
    (h : eraseChildNid p c e = .ok e2) : e2 = e := by
  rw [eraseChildNid_not_present e p c hp] at h
  injection h with h
  exact h.symm

theorem eraseF_determ (f f2 : XMLForest) (p c : Nat) (hp : p ∉ nidsOfF f)
    (h : eraseChildNidF p c f = .ok f2) : f2 = f := by
  rw [eraseChildNidF_not_present f p c hp] at h
  injection h with h
  exact h.symm

theorem locateNid_self (e : XMLElem) (q : Nat) (h : e.nid = q) :
    locateNid e q = some e := by
  cases e with
  | mk n t a tx tl f =>
    have h2 : n = q := h
    rw [locateNid, if_pos h2]

theorem locateNidL_some_mem (u : List XMLElem) (q : Nat) (y : XMLElem)
    (h : locateNidL u q = some y) : q ∈ nidsOfL u := by
  induction u generalizing y with
  | nil => cases h
  | cons c1 cs ih =>
    rw [locateNidL] at h
    cases h1 : locateNid c1 q with
    | some z =>
      have hz : q ∈ nidsOf c1 := by
        by_contra hz
        rw [← locateNid_none_iff] at hz
        rw [hz] at h1
        cases h1
      rw [nidsOfL]
      exact List.mem_append.mpr (Or.inl hz)
    | none =>
      rw [h1] at h
      rw [nidsOfL]
      exact List.mem_append.mpr (Or.inr (ih y h))

mutual

theorem erase_retained : ∀ (e e2 : XMLElem) (p c q : Nat),
    (nidsOf e).Nodup → eraseChildNid p c e = .ok e2 → q ∈ nidsOf e →
    (∀ x, locateNid e c = some x → q ∉ nidsOf x) → q ∈ nidsOf e2
  | .mk n t a tx tl f, e2, p, c, q => by
    intro hnd h hq hloc
    by_cases hn : n = p
    · rw [eraseChildNid, if_pos hn] at h
      by_cases hany : (XMLForest.toList f).any (fun x => x.nid == c)
      · rw [if_pos hany] at h
        injection h with h
        subst h
        obtain ⟨u, rc, w, hl, hrc, hu⟩ := erase_exists_split _ c hany
        have hnds : nidsOfF f = nidsOfL u ++ (nidsOf rc ++ nidsOfL w) := by
          rw [nidsOfF_toList, hl, nidsOfL_append, nidsOfL]
        have hcin : c ∈ nidsOf rc := hrc ▸ nids_head rc
        have hcn : ¬ (n = c) := by
          intro hcn
          rw [nidsOf, List.nodup_cons] at hnd
          exact hnd.1 (by
            rw [hcn, hnds]
            exact List.mem_append.mpr (Or.inr (List.mem_append.mpr (Or.inl hcin))))
        have hlocrc : locateNid (XMLElem.mk n t a tx tl f) c = some rc := by
          have hcu : c ∉ nidsOfL u := by
            rw [nidsOf, hnds, List.nodup_cons, List.nodup_append] at hnd
            exact fun hcu => hnd.2.2.2 hcu (List.mem_append.mpr (Or.inl hcin))
          have hul : locateNidL u c = none := by
            cases hul2 : locateNidL u c with
            | none => rfl
            | some y => exact absurd (locateNidL_some_mem u c y hul2) hcu
          rw [locateNid, if_neg hcn, locateNidF_toList, hl, locateNidL_append, hul]
          show locateNidL (rc :: w) c = some rc
          rw [locateNidL, locateNid_self rc c hrc]
        have hqrc : q ∉ nidsOf rc := hloc rc hlocrc
        rw [nidsOf] at hq
        rw [nidsOf, nidsOfF_ofList, hl, eraseFirstNid_of_split u w rc c hrc hu,
          nidsOfL_append, List.mem_cons]
        rcases List.mem_cons.mp hq with rfl | hq2
        · exact Or.inl rfl
        · rw [hnds] at hq2
          rcases List.mem_append.mp hq2 with hq3 | hq3
          · exact Or.inr (List.mem_append.mpr (Or.inl hq3))
          · rcases List.mem_append.mp hq3 with hq4 | hq4
            · exact absurd hq4 hqrc
            · exact Or.inr (List.mem_append.mpr (Or.inr hq4))
      · rw [if_neg hany] at h
        cases h
    · by_cases hp : p ∈ nidsOf (XMLElem.mk n t a tx tl f)
      · rw [eraseChildNid, if_neg hn] at h
        cases hf : eraseChildNidF p c f with
        | error e3 =>
          rw [hf] at h
          cases h
        | ok f2 =>
          rw [hf] at h
          injection h with h
          subst h
          have hpf : p ∈ nidsOfF f := by
            rw [nidsOf, List.mem_cons] at hp
            rcases hp with rfl | hp2
            · exact absurd rfl hn
            · exact hp2
          have hndf : (nidsOfF f).Nodup := by
            rw [nidsOf, List.nodup_cons] at hnd
            exact hnd.2
          have hcf : c ∈ nidsOfF f := (eraseF_removed f f2 p c hndf hpf hf).1
          have hcn : ¬ (n = c) := by
            intro hcn
            rw [nidsOf, List.nodup_cons] at hnd
            exact hnd.1 (hcn ▸ hcf)
          have hloc2 : ∀ x, locateNidF f c = some x → q ∉ nidsOf x := by
            intro x hx
            refine hloc x ?_
            rw [locateNid, if_neg hcn]
            exact hx
          rw [nidsOf, List.mem_cons] at hq
          rw [nidsOf, List.mem_cons]
          rcases hq with rfl | hq2
          · exact Or.inl rfl
          · exact Or.inr (eraseF_retained f f2 p c q hndf hf hq2 hloc2)
      · rw [erase_determ _ e2 p c hp h]
        exact hq

theorem eraseF_retained : ∀ (f f2 : XMLForest) (p c q : Nat),
    (nidsOfF f).Nodup → eraseChildNidF p c f = .ok f2 → q ∈ nidsOfF f →
    (∀ x, locateNidF f c = some x → q ∉ nidsOf x) → q ∈ nidsOfF f2
  | .nil, f2, p, c, q => by
    intro _ _ hq
    cases hq
  | .cons c0 f, f2, p, c, q => by
    intro hnd h hq hloc
    rw [eraseChildNidF] at h
    cases hc0 : eraseChildNid p c c0 with
    | error e3 =>
      rw [hc0] at h
      cases h
    | ok c02 =>
      rw [hc0] at h
      cases hfr : eraseChildNidF p c f with
      | error e3 =>
        rw [hfr] at h
        cases h
      | ok frest =>
        rw [hfr] at h
        injection h with h
        subst h
        rw [nidsOfF, List.nodup_append] at hnd
        rw [nidsOfF, List.mem_append] at hq
        rw [nidsOfF, List.mem_append]
        rcases hq with hq2 | hq2
        · left
          by_cases hp : p ∈ nidsOf c0
          · refine erase_retained c0 c02 p c q hnd.1 hc0 hq2 ?_
            intro x hx
            refine hloc x ?_
            rw [locateNidF, hx]
          · rw [erase_determ c0 c02 p c hp hc0]
            exact hq2
        · right
          by_cases hp : p ∈ nidsOfF f
          · have hcf : c ∈ nidsOfF f := (eraseF_removed f frest p c hnd.2.1 hp hfr).1
            have hcc0 : c ∉ nidsOf c0 := fun hm => hnd.2.2 hm hcf
            have hnone : locateNid c0 c = none := (locateNid_none_iff c0 c).mpr hcc0
            refine eraseF_retained f frest p c q hnd.2.1 hfr hq2 ?_
            intro x hx
            refine hloc x ?_
            rw [locateNidF, hnone]
            exact hx
          · rw [eraseF_determ f frest p c hp hfr]
            exact hq2

end

mutual

theorem erase_locate_stable : ∀ (e e2 : XMLElem) (p c q : Nat) (x : XMLElem),
    (nidsOf e).Nodup → eraseChildNid p c e = .ok e2 →
    locateNid e q = some x → ¬ (p ∈ nidsOf x) →
    (∀ rcx, locateNid e c = some rcx → q ∉ nidsOf rcx) →
    locateNid e2 q = some x
  | .mk n t a tx tl f, e2, p, c, q, x => by
    intro hnd h hlq hxp hloc
    by_cases hp : p ∈ nidsOf (XMLElem.mk n t a tx tl f)
    · by_cases hn : n = p
      · rw [eraseChildNid, if_pos hn] at h
        by_cases hany : (XMLForest.toList f).any (fun y => y.nid == c)
        · rw [if_pos hany] at h
          injection h with h
          subst h
          have hnq : ¬ (n = q) := by
            intro hnq
            rw [locateNid, if_pos hnq] at hlq
            injection hlq with hlq
            rw [← hlq] at hxp
            exact hxp (hn ▸ nids_head _)
          rw [locateNid, if_neg hnq] at hlq
          obtain ⟨u, rc, w, hl, hrc, hu⟩ := erase_exists_split _ c hany
          have hnds : nidsOfF f = nidsOfL u ++ (nidsOf rc ++ nidsOfL w) := by
            rw [nidsOfF_toList, hl, nidsOfL_append, nidsOfL]
          have hcin : c ∈ nidsOf rc := hrc ▸ nids_head rc
          have hcn : ¬ (n = c) := by
            intro hcn
            rw [nidsOf, List.nodup_cons] at hnd
            exact hnd.1 (by
              rw [hcn, hnds]
              exact List.mem_append.mpr (Or.inr (List.mem_append.mpr (Or.inl hcin))))
          have hlocrc : locateNid (XMLElem.mk n t a tx tl f) c = some rc := by
            have hcu : c ∉ nidsOfL u := by
              rw [nidsOf, hnds, List.nodup_cons, List.nodup_append] at hnd
              exact fun hcu => hnd.2.2.2 hcu (List.mem_append.mpr (Or.inl hcin))
            have hul : locateNidL u c = none := by
              cases hul2 : locateNidL u c with
              | none => rfl
              | some y => exact absurd (locateNidL_some_mem u c y hul2) hcu
            rw [locateNid, if_neg hcn, locateNidF_toList, hl, locateNidL_append, hul]
            show locateNidL (rc :: w) c = some rc
            rw [locateNidL, locateNid_self rc c hrc]
          have hqrc : q ∉ nidsOf rc := hloc rc hlocrc
          rw [locateNid, if_neg hnq, locateNidF_toList, toList_ofList, hl,
            eraseFirstNid_of_split u w rc c hrc hu, locateNidL_append]
          rw [locateNidF_toList, hl, locateNidL_append] at hlq
          cases hul : locateNidL u q with
          | some y =>
            rw [hul] at hlq
            exact hlq
          | none =>
            rw [hul] at hlq
            have hlq2 : locateNidL (rc :: w) q = some x := hlq
            have hrcq : locateNid rc q = none :=
              (locateNid_none_iff rc q).mpr hqrc
            rw [locateNidL, hrcq] at hlq2
            exact hlq2
        · rw [if_neg hany] at h
          cases h
      · rw [eraseChildNid, if_neg hn] at h
        cases hf : eraseChildNidF p c f with
        | error e3 =>
          rw [hf] at h
          cases h
        | ok f2 =>
          rw [hf] at h
          injection h with h
          subst h
          have hpf : p ∈ nidsOfF f := by
            rw [nidsOf, List.mem_cons] at hp
            rcases hp with rfl | hp2
            · exact absurd rfl hn
            · exact hp2
          have hndf : (nidsOfF f).Nodup := by
            rw [nidsOf, List.nodup_cons] at hnd
            exact hnd.2
          have hcf : c ∈ nidsOfF f := (eraseF_removed f f2 p c hndf hpf hf).1
          have hcn : ¬ (n = c) := by
            intro hcn
            rw [nidsOf, List.nodup_cons] at hnd
            exact hnd.1 (hcn ▸ hcf)
          have hnq : ¬ (n = q) := by
            intro hnq
            rw [locateNid, if_pos hnq] at hlq
            injection hlq with hlq
            rw [← hlq] at hxp
            exact hxp hp
          rw [locateNid, if_neg hnq] at hlq
          rw [locateNid, if_neg hnq]
          refine eraseF_locate_stable f f2 p c q x hndf hf hlq hxp ?_
          intro rcx hrcx
          refine hloc rcx ?_
          rw [locateNid, if_neg hcn]
          exact hrcx
    · rw [erase_determ _ e2 p c hp h]
      exact hlq

theorem eraseF_locate_stable : ∀ (f f2 : XMLForest) (p c q : Nat) (x : XMLElem),
    (nidsOfF f).Nodup → eraseChildNidF p c f = .ok f2 →
    locateNidF f q = some x → ¬ (p ∈ nidsOf x) →
    (∀ rcx, locateNidF f c = some rcx → q ∉ nidsOf rcx) →
    locateNidF f2 q = some x
  | .nil, f2, p, c, q, x => by
    intro _ h hlq
    cases hlq
  | .cons c0 f, f2, p, c, q, x => by
    intro hnd h hlq hxp hloc
    rw [eraseChildNidF] at h
    cases hc0 : eraseChildNid p c c0 with
    | error e3 =>
      rw [hc0] at h
      cases h
    | ok c02 =>
      rw [hc0] at h
      cases hfr : eraseChildNidF p c f with
      | error e3 =>
        rw [hfr] at h
        cases h
      | ok frest =>
        rw [hfr] at h
        injection h with h
        subst h
        rw [nidsOfF, List.nodup_append] at hnd
        rw [locateNidF] at hlq
        rw [locateNidF]
        cases hlc0 : locateNid c0 q with
        | some y =>
          rw [hlc0] at hlq
          injection hlq with hlq
          subst hlq
          by_cases hp : p ∈ nidsOf c0
          · have hstab : locateNid c02 q = some y := by
              refine erase_locate_stable c0 c02 p c q y hnd.1 hc0 hlc0 hxp ?_
              intro rcx hrcx
              refine hloc rcx ?_
              rw [locateNidF, hrcx]
            rw [hstab]
          · rw [erase_determ c0 c02 p c hp hc0, hlc0]
        | none =>
          rw [hlc0] at hlq
          have hqc0 : q ∉ nidsOf c0 := (locateNid_none_iff c0 q).mp hlc0
          have hqc02 : q ∉ nidsOf c02 := fun hm =>
            hqc0 ((eraseChildNid_nids_sublist c0 c02 p c hc0).subset hm)
          rw [(locateNid_none_iff c02 q).mpr hqc02]
          by_cases hp : p ∈ nidsOfF f
          · have hcf : c ∈ nidsOfF f := (eraseF_removed f frest p c hnd.2.1 hp hfr).1
            have hcc0 : c ∉ nidsOf c0 := fun hm => hnd.2.2 hm hcf
            have hnone : locateNid c0 c = none := (locateNid_none_iff c0 c).mpr hcc0
            refine eraseF_locate_stable f frest p c q x hnd.2.1 hfr hlq hxp ?_
            intro rcx hrcx
            refine hloc rcx ?_
            rw [locateNidF, hnone]
            exact hrcx
          · rw [eraseF_determ f frest p c hp hfr]
            exact hlq

end

theorem findChildL_mem : ∀ (l : List XMLElem) (t : String) (x : XMLElem),
    findChildL l t = some x → x ∈ l := by
  intro l t
  induction l with
  | nil => intro x h; cases h
  | cons c cs ih =>
    intro x h
    by_cases hc : c.tag = t
    · rw [findChildL, if_pos hc] at h
      injection h with h
      exact h ▸ List.mem_cons_self ..
    · rw [findChildL, if_neg hc] at h
      exact List.mem_cons_of_mem _ (ih x h)

theorem mem_preorderF_of_mem_toList : ∀ (f : XMLForest) (y : XMLElem),
    y ∈ f.toList → y ∈ preorderF f
  | .nil, y => by intro h; cases h
  | .cons c f, y => by
    intro h
    rw [XMLForest.toList] at h
    rw [preorderF]
    rcases List.mem_cons.mp h with rfl | h2
    · exact List.mem_append.mpr (Or.inl (by rw [preorderSelf_eq]; exact List.mem_cons_self ..))
    · exact List.mem_append.mpr (Or.inr (mem_preorderF_of_mem_toList f y h2))

theorem mem_preorderSelf_of_child (x y : XMLElem) (h : y ∈ x.children) :
    y ∈ preorderSelf x := by
  rw [preorderSelf_eq]
  exact List.mem_cons_of_mem _ (mem_preorderF_of_mem_toList x.kids y h)

theorem findPath3_mem (d surf : XMLElem) (h : findPath3 d = some surf) :
    surf ∈ preorderSelf d := by
  obtain ⟨m, hm, _, hg⟩ := findStep_some _ _ d.children surf h
  obtain ⟨fc, hfc, _, hg2⟩ := findStep_some _ _ m.children surf hg
  have h1 : surf ∈ fc.children := findChildL_mem _ _ _ hg2
  exact preorder_trans d m surf (mem_preorderSelf_of_child d m hm)
    (preorder_trans m fc surf (mem_preorderSelf_of_child m fc hfc)
      (mem_preorderSelf_of_child fc surf h1))

theorem nid_mem_of_preorder (e x : XMLElem) (h : x ∈ preorderSelf e) :
    x.nid ∈ nidsOf e := by
  rw [nidsOf_eq_map]
  exact List.mem_map_of_mem _ h

theorem findChildWithAttr_spec (e : XMLElem) (k v : String) (z : XMLElem)
    (h : findChildWithAttr e k v = some z) :
    z ∈ e.children ∧ alookup z.attrib k = some v := by
  refine ⟨List.mem_of_find?_eq_some h, ?_⟩
  have := List.find?_some h
  simpa using this

/-! ## Claim C4 (amended) -/

/-- C4 amended: when the duplicate list consists of a single pair whose two
members resolve to distinct attached elements with identical content, running
the deduplicator with `remove_identical_duplicates` removes exactly the
second member's element and its zone, retains the first member's element and
zone, and finishes without error.  (The original claim's universal form fails
when a zone is second in one pair and first in another — three or more
mutually identical zones — see the counterexample.) -/
theorem C4_amended_single_pair (cfg : CleanerConfig) (d d2 : XMLElem)
    (a b : String) (e1 p1 e2 p2 surf za zb : XMLElem)
    (hnd : nodupNids d)
    (hcfg : cfg.remove_identical_duplicates = true)
    (hged : get_elements_with_duplicate_references d =
      .ok [(⟨some e1, a, some p1⟩, ⟨some e2, b, some p2⟩)])
    (hident : check_element_identity (some e1) (some e2) = .ok true)
    (hsurf : findPath3 d = some surf)
    (hdel : delete_element_and_referenced_zone d (findPath3 d)
      (some e2) (some p2) b = (d2, none))
    (hzb : findChildWithAttr surf xmlIdK (stripHash b) = some zb)
    (hza : findChildWithAttr surf xmlIdK (stripHash a) = some za)
    (hp2 : p2.nid ∈ nidsOf d)
    (hloce2 : locateNid d e2.nid = some e2)
    (he1in : e1.nid ∈ nidsOf d)
    (hsp2 : p2.nid ∉ nidsOf surf)
    (hsurfe2 : surf.nid ∉ nidsOf e2)
    (he1e2 : e1.nid ∉ nidsOf e2)
    (he1zb : e1.nid ∉ nidsOf zb)
    (hzae2 : za.nid ∉ nidsOf e2)
    (hzazb : za.nid ∉ nidsOf zb) :
    handle_referenced_duplicates cfg d = ⟨d2, [], none⟩ ∧
    e2.nid ∉ nidsOf d2 ∧ zb.nid ∉ nidsOf d2 ∧
    e1.nid ∈ nidsOf d2 ∧ za.nid ∈ nidsOf d2 ∧
    alookup zb.attrib xmlIdK = some (stripHash b) := by
  have hndl : (nidsOf d).Nodup := hnd
  -- decompose the successful delete call
  have hdec : ∃ d1, eraseChildNid p2.nid e2.nid d = .ok d1 ∧
      ∃ surfCur, locateNid d1 surf.nid = some surfCur ∧
      ∃ zDel, findChildWithAttr surfCur xmlIdK (stripHash b) = some zDel ∧
      eraseChildNid surf.nid zDel.nid d1 = .ok d2 := by
    simp only [delete_element_and_referenced_zone, hsurf] at hdel
    split at hdel
    · simp at hdel
    split at hdel
    · simp at hdel
    rename_i d1 h1
    split at hdel
    · simp at hdel
    rename_i surfCur h2
    split at hdel
    · simp at hdel
    rename_i zDel h3
    split at hdel
    · simp at hdel
    rename_i d2x h4
    simp only [Prod.mk.injEq] at hdel
    exact ⟨d1, h1, surfCur, h2, zDel, h3, hdel.1 ▸ h4⟩
  obtain ⟨d1, h1, surfCur, h2, zDel, h3, h4⟩ := hdec
  -- the surface node is untouched by the element removal
  have hsurfmem : surf ∈ preorderSelf d := findPath3_mem d surf hsurf
  have hlsurf : locateNid d surf.nid = some surf := locateNid_of_mem d surf hndl hsurfmem
  have hsurfstable : locateNid d1 surf.nid = some surf := by
    refine erase_locate_stable d d1 p2.nid e2.nid surf.nid surf hndl h1 hlsurf hsp2 ?_
    intro rcx hrcx
    rw [hloce2] at hrcx
    injection hrcx with hrcx
    rw [← hrcx]
    exact hsurfe2
  have hsurfCur : surfCur = surf := by
    rw [hsurfstable] at h2
    injection h2 with h2
    exact h2.symm
  rw [hsurfCur] at h3
  have hzDel : zDel = zb := by
    rw [hzb] at h3
    injection h3 with h3
    exact h3.symm
  rw [hzDel] at h4
  -- node-identity bookkeeping
  have hnd1 : (nidsOf d1).Nodup :=
    List.Nodup.sublist (eraseChildNid_nids_sublist d d1 p2.nid e2.nid h1) hndl
  have hsub2 := eraseChildNid_nids_sublist d1 d2 surf.nid zb.nid h4
  have hrm1 := erase_removed d d1 p2.nid e2.nid hndl hp2 h1
  have hsurfnid1 : surf.nid ∈ nidsOf d1 := by
    have := locateNid_some_mem d1 surf.nid surf hsurfstable
    exact this.2 ▸ nid_mem_of_preorder d1 surf this.1
  have hrm2 := erase_removed d1 d2 surf.nid zb.nid hnd1 hsurfnid1 h4
  have hsurfpre1 : surf ∈ preorderSelf d1 := (locateNid_some_mem d1 surf.nid surf hsurfstable).1
  have hzbchild := findChildWithAttr_spec surf xmlIdK (stripHash b) zb hzb
  have hzachild := findChildWithAttr_spec surf xmlIdK (stripHash a) za hza
  have hzbpre1 : zb ∈ preorderSelf d1 :=
    preorder_trans d1 surf zb hsurfpre1 (mem_preorderSelf_of_child surf zb hzbchild.1)
  have hloczb1 : locateNid d1 zb.nid = some zb := locateNid_of_mem d1 zb hnd1 hzbpre1
  -- retention of the first member
  have he1d1 : e1.nid ∈ nidsOf d1 := by
    refine erase_retained d d1 p2.nid e2.nid e1.nid hndl h1 he1in ?_
    intro x hx
    rw [hloce2] at hx
    injection hx with hx
    rw [← hx]
    exact he1e2
  have he1d2 : e1.nid ∈ nidsOf d2 := by
    refine erase_retained d1 d2 surf.nid zb.nid e1.nid hnd1 h4 he1d1 ?_
    intro x hx
    rw [hloczb1] at hx
    injection hx with hx
    rw [← hx]
    exact he1zb
  have hzain : za.nid ∈ nidsOf d := by
    have hzapre : za ∈ preorderSelf d :=
      preorder_trans d surf za hsurfmem (mem_preorderSelf_of_child surf za hzachild.1)
    exact nid_mem_of_preorder d za hzapre
  have hzad1 : za.nid ∈ nidsOf d1 := by
    refine erase_retained d d1 p2.nid e2.nid za.nid hndl h1 hzain ?_
    intro x hx
    rw [hloce2] at hx
    injection hx with hx
    rw [← hx]
    exact hzae2
  have hzad2 : za.nid ∈ nidsOf d2 := by
    refine erase_retained d1 d2 surf.nid zb.nid za.nid hnd1 h4 hzad1 ?_
    intro x hx
    rw [hloczb1] at hx
    injection hx with hx
    rw [← hx]
    exact hzazb
  -- the run itself
  have hrun : handle_referenced_duplicates cfg d = ⟨d2, [], none⟩ := by
    rw [handle_referenced_duplicates, hged]
    simp only [handle_loop, hident, hcfg, if_true, hdel]
  exact ⟨hrun,
    fun hm => hrm1.2 (hsub2.subset hm),
    hrm2.2,
    he1d2, hzad2, hzbchild.2⟩

/-! ## Claim C4: counterexample and witness -/

def c4e1 : XMLElem := refEl 30 "e1" "#z1" (some "A") []

def c4e2 : XMLElem := refEl 31 "e2" "#z2" (some "A") []

def c4e3 : XMLElem := refEl 32 "e3" "#z3" (some "A") []

/-- Three coordinate-identical zones, each referenced by one of three
content-identical elements. -/
def c4doc : XMLElem := mkMeiDoc [c5zone 4 "z1", c5zone 5 "z2", c5zone 6 "z3"] [c4e1, c4e2, c4e3]

/-- C4 counterexample: with three mutually identical zones the duplicate list
is [(#z1,#z2), (#z1,#z3), (#z2,#z3)].  The pair (#z2,#z3) has identical
resolved elements, yet its FIRST-listed member #z2 (element e2, zone z2 with
node ids 31 and 5) has been removed by the time the run ends — processing the
earlier pair (#z1,#z2) deleted it — so the first-listed member of a pair is
NOT always retained.  The run moreover ends in a ValueError: deleting the
second member of (#z2,#z3) repeats the deletion of e3 done for (#z1,#z3), and
`list.remove` on an absent child raises. -/
theorem C4_counterexample :
    find_duplicate_zones c4doc = .ok [("#z1", "#z2"), ("#z1", "#z3"), ("#z2", "#z3")] ∧
    check_element_identity (some c4e2) (some c4e3) = .ok true ∧
    handle_referenced_duplicates cfgDefault c4doc =
      ⟨mkMeiDoc [c5zone 4 "z1"] [c4e1], [], some PyErr.valueError⟩ ∧
    c4e2.nid ∉ nidsOf (handle_referenced_duplicates cfgDefault c4doc).doc ∧
    (c5zone 5 "z2").nid ∉ nidsOf (handle_referenced_duplicates cfgDefault c4doc).doc := by
  refine ⟨by decide, by decide, by decide, by decide, by decide⟩

def c4we1 : XMLElem := refEl 30 "e1" "#z1" (some "A") []

def c4we2 : XMLElem := refEl 31 "e2" "#z2" (some "A") []

/-- Two identical zones referenced by two content-identical elements: the
single-pair situation of the amended claim. -/
def c4wdoc : XMLElem := mkMeiDoc [c5zone 4 "z1", c5zone 5 "z2"] [c4we1, c4we2]

def c4wlayer : XMLElem := xel 25 (meiT "layer") [] none none [c4we1, c4we2]

def c4wsurf : XMLElem := xel 3 (meiT "surface") [] none none [c5zone 4 "z1", c5zone 5 "z2"]

def c4wres : XMLElem := mkMeiDoc [c5zone 4 "z1"] [c4we1]

/-- C4 amended, witnessed at a concrete single-pair document: the run removes
the second member's element and zone, keeps the first member's, and ends
without error. -/
theorem C4_amended_witness :
    get_elements_with_duplicate_references c4wdoc =
      .ok [(⟨some c4we1, "#z1", some c4wlayer⟩, ⟨some c4we2, "#z2", some c4wlayer⟩)] ∧
    (handle_referenced_duplicates cfgDefault c4wdoc = ⟨c4wres, [], none⟩ ∧
     c4we2.nid ∉ nidsOf c4wres ∧ (c5zone 5 "z2").nid ∉ nidsOf c4wres ∧
     c4we1.nid ∈ nidsOf c4wres ∧ (c5zone 4 "z1").nid ∈ nidsOf c4wres ∧
     alookup (c5zone 5 "z2").attrib xmlIdK = some (stripHash "#z2")) := by
  refine ⟨by decide, ?_⟩
  exact C4_amended_single_pair cfgDefault c4wdoc c4wres "#z1" "#z2" c4we1 c4wlayer c4we2
    c4wlayer c4wsurf (c5zone 4 "z1") (c5zone 5 "z2")
    (by decide) (by decide) (by decide) (by decide) (by decide) (by decide)
    (by decide) (by decide) (by decide) (by decide) (by decide) (by decide)
    (by decide) (by decide) (by decide) (by decide) (by decide)

/-! ## Claim C8 (amended) -/

/-- When the cleaning passes leave the tree unchanged, the pipeline output is
the saved form of the parsed tree. -/
theorem clean_pipeline_noop (cfg : CleanerConfig) (content : String) (d : XMLElem)
    (decls : String)
    (hrep : cfg.report_file = none)
    (hread : read_mei_file content = .ok (d, decls))
    (hruz : (if cfg.remove_unreferenced_bounding_boxes
             then remove_unreferenced_zones d else .ok d) = .ok d)
    (hhrd : handle_referenced_duplicates cfg d = ⟨d, [], none⟩) :
    clean_pipeline cfg content = .ok (save_mei_file d decls) := by
  rw [clean_pipeline, hrep]
  simp only [Option.isSome_none, Bool.false_eq_true, if_false, hread]
  rw [clean_mei_doc, hrep]
  simp only [Option.isSome_none, Bool.false_eq_true, if_false, hruz, hhrd]

/-- C8 amended: for every input that parses, whose tree the cleaning passes
leave unchanged (no unreferenced zones, no duplicate-zone deletions, no
error), the pipeline output is exactly the declaration lines captured at read
time, prepended verbatim, followed by the serializer's output with the
documented collapse of `" />"` to `"/>"`.  (Byte-identity with the input
fails in general even under these hypotheses: the serializer normalizes,
e.g. single-quoted attributes are re-emitted double-quoted — see the
counterexample.) -/
theorem C8_amended (cfg : CleanerConfig) (content : String) (d : XMLElem) (decls : String)
    (hrep : cfg.report_file = none)
    (hread : read_mei_file content = .ok (d, decls))
    (hruz : (if cfg.remove_unreferenced_bounding_boxes
             then remove_unreferenced_zones d else .ok d) = .ok d)
    (hhrd : handle_referenced_duplicates cfg d = ⟨d, [], none⟩) :
    clean_pipeline cfg content =
      .ok (decls ++ String.mk (replaceAllL " />".toList "/>".toList (tostringL d))) ∧
    decls = captureDecls content := by
  have hdecls : decls = captureDecls content := by
    rw [read_mei_file] at hread
    split at hread
    · exact absurd hread (by simp)
    · rename_i d0 hp
      simp only [Except.ok.injEq, Prod.mk.injEq] at hread
      exact hread.2.symm
  exact ⟨clean_pipeline_noop cfg content d decls hrep hread hruz hhrd, hdecls⟩

def pipeIn1 : String :=
  "<?xml version=\"1.0\" encoding=\"UTF-8\"?>" ++ String.mk [nlChar] ++
  "<mei xmlns=\"http://www.music-encoding.org/ns/mei\"><music><facsimile><surface /></facsimile><body n=\"1\" /></music></mei>"

def pipeDoc1 : XMLElem :=
  xel 0 (meiT "mei") [] none none
    [xel 1 (meiT "music") [] none none
      [xel 2 (meiT "facsimile") [] none none
        [xel 3 (meiT "surface") [] none none []],
       xel 4 (meiT "body") [("n", "1")] none none []]]

def pipeDecls : String := "<?xml version=\"1.0\" encoding=\"UTF-8\"?>" ++ String.mk [nlChar]

/-- The same document as `pipeIn1` but with the `n` attribute single-quoted. -/
def c8in : String :=
  "<?xml version=\"1.0\" encoding=\"UTF-8\"?>" ++ String.mk [nlChar] ++
  "<mei xmlns=\"http://www.music-encoding.org/ns/mei\"><music><facsimile><surface /></facsimile><body n=" ++
  String.mk [squote, Char.ofNat 49, squote] ++ " /></music></mei>"

/-- What the pipeline actually outputs for `c8in`: double-quoted `n="1"`. -/
def c8out : String :=
  "<?xml version=\"1.0\" encoding=\"UTF-8\"?>" ++ String.mk [nlChar] ++
  "<mei xmlns=\"http://www.music-encoding.org/ns/mei\"><music><facsimile><surface/></facsimile><body n=\"1\"/></music></mei>"

/-- C8 counterexample: an input whose only zone-free tree the cleaner leaves
untouched, yet whose cleaned output is NOT the input with `" />"` collapsed:
the attribute written `n='1'` (single quotes) in the input is re-serialized
as `n="1"`, so the output differs from the input beyond the documented
normalization. -/
theorem C8_counterexample :
    clean_pipeline cfgDefault c8in = .ok c8out ∧
    c8out ≠ String.mk (replaceAllL " />".toList "/>".toList c8in.toList) := by
  have h1 : pyXmlParse c8in = .ok pipeDoc1 := by decide
  have hread : read_mei_file c8in = .ok (pipeDoc1, pipeDecls) := by
    rw [read_mei_file, h1]
    decide
  have hruz : (if cfgDefault.remove_unreferenced_bounding_boxes
               then remove_unreferenced_zones pipeDoc1 else .ok pipeDoc1) = .ok pipeDoc1 := by
    decide
  have hhrd : handle_referenced_duplicates cfgDefault pipeDoc1 = ⟨pipeDoc1, [], none⟩ := by
    decide
  have hsave : save_mei_file pipeDoc1 pipeDecls = c8out := by decide
  refine ⟨?_, by decide⟩
  rw [clean_pipeline_noop cfgDefault c8in pipeDoc1 pipeDecls rfl hread hruz hhrd, hsave]

/-- C8 amended, witnessed at a concrete no-op input: declarations are
prepended verbatim and the only change to the serialized tree is the
`" />"` collapse. -/
theorem C8_amended_witness :
    clean_pipeline cfgDefault pipeIn1 =
      .ok (pipeDecls ++ String.mk (replaceAllL " />".toList "/>".toList (tostringL pipeDoc1))) ∧
    pipeDecls = captureDecls pipeIn1 := by
  have h1 : pyXmlParse pipeIn1 = .ok pipeDoc1 := by decide
  have hread : read_mei_file pipeIn1 = .ok (pipeDoc1, pipeDecls) := by
    rw [read_mei_file, h1]
    decide
  exact C8_amended cfgDefault pipeIn1 pipeDoc1 pipeDecls rfl hread (by decide) (by decide)
